import Mathlib

/-!
# Verification of the `immutable` Go library (persistent Map and Vector)

Shallow embedding of the `immutable` package: a persistent hash map
(`map.go`, the current revision with an adaptive `leafCount`) and a
persistent bit-partitioned vector (`vector.go`, the revision whose nodes
hold growable `values`/`children` slices), together with proofs about the
claims of the specification.

Modelling conventions:
* Go `interface{}` keys and values become type parameters `κ` (with
  decidable equality, mirroring Go's `==` on comparable keys) and `α`.
* The 32-bit hash produced by `hashValue`/`hashFunc` is an explicit
  parameter `hash : κ → Nat`; the Go implementation only applies `%` and
  `/` to it, and for values below `2^32` those agree with `Nat`
  arithmetic, so every theorem is quantified over the hash function.
* Go slices become `List`s; a `nil` slice is `[]`.  Go fixed arrays of
  pointers (`[8]*bucket`) become lists of `Option` that the operations
  keep at length 8.  `copy(dst, src)` into a freshly made slice of
  length `n` is `padCopy`/`padTo`: take `n` elements and pad with the
  zero value.
* Functions that can panic in Go (vector `Get`/`Set`/`Slice` bounds
  errors, `VectorRange.Get` on an unallocated slot) return `Option`,
  `none` meaning the panic.
-/

set_option autoImplicit false
set_option maxRecDepth 100000

namespace Immutable

/-! ## List helpers (Go slice indexing and copying) -/

/-- `copy` into a freshly `make`-d slice of length `n` whose zero value is
`d`: the first `min n l.length` cells come from `l`, the rest are `d`. -/
def padCopy {χ : Type} (n : Nat) (d : χ) (l : List χ) : List χ :=
  l.take n ++ List.replicate (n - l.length) d

/-! ## The map's trie (`map.go`) -/

/-- Number of child slots per trie node (`bucketCount = 8`). -/
def bucketCount : Nat := 8

/-- Depth of the trie (`levels = 4`). -/
def levels : Nat := 4

/-- Initial number of leaf slots (`leafStartCount = 1`). -/
def leafStartCount : Nat := 1

/-- `mapCapacity`: `bucketCount^levels * leafCount`. -/
def mapCapacity (leafCount : Nat) : Nat := bucketCount ^ levels * leafCount

/-- `bucket`: a trie node, with 8 child pointers and (at the leaf level) a
slice of collision lists.  Children are kept at length 8, matching Go's
fixed `[8]*bucket` array. -/
inductive bucket (κ α : Type) : Type where
  | mk (buckets : List (Option (bucket κ α))) (values : List (List (κ × α)))

namespace bucket

variable {κ α : Type}

def buckets : bucket κ α → List (Option (bucket κ α))
  | .mk b _ => b

def values : bucket κ α → List (List (κ × α))
  | .mk _ v => v

/-- The zero value of Go's `bucket` struct: 8 nil children, nil values. -/
def empty : bucket κ α := .mk (List.replicate bucketCount none) []

end bucket

/-- `Map`: the immutable hash map value (`leafCount`, `capacity`, `size`,
embedded root bucket).  The zero `Map` is empty and ready for use. -/
structure Map (κ α : Type) where
  leafCount : Nat := 0
  capacity : Nat := 0
  size : Nat := 0
  root : bucket κ α := bucket.empty

namespace Map

variable {κ α : Type} [DecidableEq κ]

/-- The zero `Map`. -/
def empty (κ α : Type) : Map κ α := {}

/-- First `e.value` in the list whose `e.key == key` (the scan in `Get`). -/
def findValue (key : κ) : List (κ × α) → Option α
  | [] => none
  | e :: rest => if e.1 = key then some e.2 else findValue key rest

/-- The scan in `Set`: replace the value of the first entry whose key
matches, returning `none` when no entry matches. -/
def replaceFirst (key : κ) (value : α) : List (κ × α) → Option (List (κ × α))
  | [] => none
  | e :: rest =>
    if e.1 = key then some ((e.1, value) :: rest)
    else (replaceFirst key value rest).map (e :: ·)

/-- The scan in `Delete`: remove the first entry whose key matches
(order preserving), returning `none` when no entry matches. -/
def removeFirst (key : κ) : List (κ × α) → Option (List (κ × α))
  | [] => none
  | e :: rest =>
    if e.1 = key then some rest
    else (removeFirst key rest).map (e :: ·)

/-- One step of the redistribution loop in `Set`: append element `e` to
the leaf slot selected by `(hash e.key / bucketCount^levels) % leafCount`. -/
def rehashStep (hash : κ → Nat) (leafCount : Nat)
    (acc : List (List (κ × α))) (e : κ × α) : List (List (κ × α)) :=
  let valueIndex := hash e.1 / bucketCount ^ levels % leafCount
  acc.set valueIndex (acc.getD valueIndex [] ++ [e])

/-- The redistribution in `Set` when the leaf's slot count differs from
the map's current `leafCount`: all elements are re-placed into a fresh
table of `leafCount` lists. -/
def rehashInto (hash : κ → Nat) (leafCount : Nat)
    (old : List (List (κ × α))) : List (List (κ × α)) :=
  old.flatten.foldl (rehashStep hash leafCount) (List.replicate leafCount [])

/-- The leaf step of `Set`: rebuild the value table at the current
`leafCount`, then replace or append the entry in the selected slot.  The
returned flag is true when a new entry was appended (`m.size++`). -/
def setLeaf (hash : κ → Nat) (leafCount : Nat) (key : κ) (value : α)
    (b : bucket κ α) (h : Nat) : bucket κ α × Bool :=
  let newValues :=
    if b.values.length ≠ leafCount then rehashInto hash leafCount b.values
    else b.values
  let valueIndex := h % leafCount
  let list := newValues.getD valueIndex []
  match replaceFirst key value list with
  | some newList => (bucket.mk b.buckets (newValues.set valueIndex newList), false)
  | none => (bucket.mk b.buckets (newValues.set valueIndex (list ++ [(key, value)])), true)

/-- The copy-on-write descent of `Set`: at each level pick the child at
`h % bucketCount` (a fresh bucket when nil), replace that slot in a copy
of the node, and recurse with `h / bucketCount`; the leaf transformation
`f` is applied after `levels` steps. -/
def setWalk (f : bucket κ α → Nat → bucket κ α × Bool) :
    bucket κ α → Nat → Nat → bucket κ α × Bool
  | b, h, 0 => f b h
  | b, h, r + 1 =>
    let i := h % bucketCount
    let next :=
      match b.buckets.getD i none with
      | none => bucket.empty
      | some nb => nb
    let sub := setWalk f next (h / bucketCount) r
    (bucket.mk (b.buckets.set i (some sub.1)) b.values, sub.2)

/-- `Map.Set`: adds an entry to a map and returns the updated map. -/
def Set (hash : κ → Nat) (m : Map κ α) (key : κ) (value : α) : Map κ α :=
  let h := hash key
  let lc :=
    if m.capacity = 0 then leafStartCount
    else if m.capacity ≤ m.size * 2 then m.leafCount * 2
    else m.leafCount
  let cap :=
    if m.capacity = 0 then mapCapacity leafStartCount
    else if m.capacity ≤ m.size * 2 then m.capacity * 2
    else m.capacity
  let res := setWalk (setLeaf hash lc key value) m.root h levels
  { leafCount := lc, capacity := cap,
    size := if res.2 then m.size + 1 else m.size, root := res.1 }

/-- The read-only descent of `Get`. -/
def getLoop (key : κ) : bucket κ α → Nat → Nat → Option α
  | b, h, 0 =>
    if b.values.length = 0 then none
    else findValue key (b.values.getD (h % b.values.length) [])
  | b, h, r + 1 =>
    match b.buckets.getD (h % bucketCount) none with
    | none => none
    | some nb => getLoop key nb (h / bucketCount) r

/-- `Map.Get`: retrieves a value from the map; `none` is Go's
`(nil, false)` and `some v` is `(v, true)`. -/
def Get (hash : κ → Nat) (m : Map κ α) (key : κ) : Option α :=
  if m.capacity = 0 then none
  else getLoop key m.root (hash key) levels

/-- The copy-on-write descent of `Delete`; `none` means some level was
missing or no entry matched, in which case `Delete` returns the original
map. -/
def delWalk (key : κ) (leafCount : Nat) :
    bucket κ α → Nat → Nat → Option (bucket κ α)
  | b, h, 0 =>
    if b.values.length = 0 then none
    else
      let newValues := padCopy leafCount [] b.values
      let valueIndex := h % newValues.length
      let list := newValues.getD valueIndex []
      match removeFirst key list with
      | none => none
      | some newList => some (bucket.mk b.buckets (newValues.set valueIndex newList))
  | b, h, r + 1 =>
    match b.buckets.getD (h % bucketCount) none with
    | none => none
    | some nb =>
      (delWalk key leafCount nb (h / bucketCount) r).map
        (fun sub => bucket.mk (b.buckets.set (h % bucketCount) (some sub)) b.values)

/-- `Map.Delete`: returns a map without entries matching the key.  Note
that the Go composite literal `Map{size: m.size - 1, root: root}` leaves
`leafCount` and `capacity` at their zero values. -/
def Delete (hash : κ → Nat) (m : Map κ α) (key : κ) : Map κ α :=
  if m.capacity = 0 then m
  else
    match delWalk key m.leafCount m.root (hash key) levels with
    | none => m
    | some newRoot =>
      { leafCount := 0, capacity := 0, size := m.size - 1, root := newRoot }

/-- `Map.Size`: the number of elements in the map. -/
def Size (m : Map κ α) : Nat := m.size

end Map

mutual

/-- `bucket.visit` with a visitor that always returns `true`, collecting
the visited `(key, value)` pairs in visit order: leaf nodes contribute
their concatenated slot lists, interior nodes the traversal of their
children in slot order. -/
def bucket.toList {κ α : Type} : bucket κ α → List (κ × α)
  | .mk buckets values =>
    if values.length > 0 then values.flatten
    else toListChildren buckets

/-- The child loop of `bucket.visit` (nil children are skipped). -/
def toListChildren {κ α : Type} : List (Option (bucket κ α)) → List (κ × α)
  | [] => []
  | none :: rest => toListChildren rest
  | some b :: rest => b.toList ++ toListChildren rest

end

/-- Child lists have length 8 down to `r` levels below this node (true of
every bucket the Go code ever builds, since children are a fixed
`[8]*bucket` array; the walks of `Set`/`Get`/`Delete` only ever inspect
`levels` levels, so this depth-bounded form is what they rely on). -/
def bucket.sizedTo {κ α : Type} : Nat → bucket κ α → Bool
  | 0, _ => true
  | r + 1, b =>
    (b.buckets.length == bucketCount) &&
      b.buckets.all (fun c =>
        match c with
        | none => true
        | some cb => cb.sizedTo r)

/-! ## The vector's trie (`vector.go`) -/

/-- Bits consumed per trie level (`bucketBits = 5`). -/
def bucketBits : Nat := 5

/-- Child/value slots per vector node (`bucketSize = 32`). -/
def bucketSize : Nat := 32

/-- `vectorNode`: value slots (populated at the terminal level) and child
pointers (populated at interior levels).  A Go nil slice is `[]`; an
allocated slice has length 32 with `none` for nil entries. -/
inductive vectorNode (α : Type) : Type where
  | mk (values : List (Option α)) (children : List (Option (vectorNode α)))

namespace vectorNode

variable {α : Type}

def values : vectorNode α → List (Option α)
  | .mk v _ => v

def children : vectorNode α → List (Option (vectorNode α))
  | .mk _ c => c

end vectorNode

/-- `Vector`: an immutable vector value.  `root` is a nil-able pointer. -/
structure Vector (α : Type) where
  size : Nat := 0
  capacity : Nat := 0
  depth : Nat := 0
  offset : Nat := 0
  root : Option (vectorNode α) := none

namespace Vector

variable {α : Type}

/-- The zero `Vector`. -/
def empty (α : Type) : Vector α := {}

/-- The interior descent shared by `Get`, `Set` and `VectorRange.Next`:
with `r` levels remaining, consume `(index >> (bucketBits * r)) % 32` to
pick the child (Go's `(index >> shifts) & bucketMask`), stopping with
`none` as soon as a child is nil. -/
def descendN : Option (vectorNode α) → Nat → Nat → Option (vectorNode α)
  | n, _, 0 => n
  | n, index, r + 1 =>
    match n with
    | none => none
    | some nd => descendN (nd.children.getD (index / bucketSize ^ (r + 1) % bucketSize) none) index r

/-- The body of `Vector.Get` after the bounds and nil-root checks: the
interior descent followed by the leaf read (`nil` values slice reads as
`nil`, otherwise `values[index & bucketMask]`). -/
def readCore (root : Option (vectorNode α)) (index depth : Nat) : Option α :=
  match descendN root index (depth - 1) with
  | none => none
  | some node =>
    if node.values.length = 0 then none
    else node.values.getD (index % bucketSize) none

/-- `Vector.Get`: the element at the given index; the outer `none` is the
Go panic (out-of-bounds access, or the nil-root dereference that a
handle with `size > 0` and no storage would cause), the inner `Option`
is the returned `interface{}` (Go `nil` is `none`). -/
def Get (v : Vector α) (index : Nat) : Option (Option α) :=
  if v.size ≤ index then none
  else
    match v.root with
    | none => none
    | some _ => some (readCore v.root (index + v.offset) v.depth)

/-- The copy-on-write descent of `Vector.Set`: with `r` levels remaining,
allocate a 32-slot child array (copied from the source node when it is
non-nil), replace the slot on the path, and finish by writing the value
into a copied 32-slot value array. -/
def setWalk (index : Nat) (value : α) :
    Option (vectorNode α) → Nat → vectorNode α
  | src, 0 =>
    let vals :=
      match src with
      | none => List.replicate bucketSize none
      | some s => padCopy bucketSize none s.values
    vectorNode.mk (vals.set (index % bucketSize) (some value)) []
  | src, r + 1 =>
    let nodeIndex := index / bucketSize ^ (r + 1) % bucketSize
    let dstChildren :=
      match src with
      | none => List.replicate bucketSize none
      | some s => padCopy bucketSize none s.children
    let srcNext :=
      match src with
      | none => none
      | some s => s.children.getD nodeIndex none
    vectorNode.mk [] (dstChildren.set nodeIndex (some (setWalk index value srcNext r)))

/-- `Vector.Set`: sets the element at the given index and returns the
updated vector; `none` is the out-of-bounds panic. -/
def Set (v : Vector α) (index : Nat) (value : α) : Option (Vector α) :=
  if v.size ≤ index then none
  else
    some { v with root := some (setWalk (index + v.offset) value v.root (v.depth - 1)) }

/-- `bumpUp`: wrap the old root as child 0 of a new, larger root. -/
def bumpUp (root : Option (vectorNode α)) : Option (vectorNode α) :=
  some (vectorNode.mk [] ((List.replicate bucketSize none).set 0 root))

/-- The growth loop of `Resize`: multiply `capacity` by 32, increment
`depth` and `bumpUp` the root until `size ≤ capacity`.  The loop is given
as structural recursion on a fuel argument so that it evaluates by
kernel reduction; `Resize` passes `size` as fuel, which is never
exhausted because `capacity ≥ 1` on entry to the loop and at least
doubles each round (`growLoop_fuel_irrelevant` below makes this
precise), so the fuel-free Go loop and this definition agree. -/
def growLoop : Nat → Nat → Nat → Nat → Option (vectorNode α) →
    Nat × Nat × Option (vectorNode α)
  | 0, _, capacity, depth, root => (capacity, depth, root)
  | fuel + 1, size, capacity, depth, root =>
    if capacity < size ∧ capacity ≠ 0 then
      growLoop fuel size (capacity * bucketSize) (depth + 1) (bumpUp root)
    else
      (capacity, depth, root)

/-- `Vector.Resize`: grows or shrinks a vector to the given size. -/
def Resize (v : Vector α) (size : Nat) : Vector α :=
  let offset := if size = 0 then 0 else v.offset
  let start :=
    if v.capacity = 0 ∧ 0 < size then (bucketSize, 1, some (vectorNode.mk [] []))
    else (v.capacity, v.depth, v.root)
  let grown := growLoop size size start.1 start.2.1 start.2.2
  { size := size, capacity := grown.1, depth := grown.2.1,
    offset := offset, root := grown.2.2 }

/-- `Vector.Slice`: a slice of a vector for the specified range; `none`
is the invalid-range panic.  Note `offset := start` replaces (rather than
adds to) the previous offset. -/
def Slice (v : Vector α) (start stop : Nat) : Option (Vector α) :=
  if stop < start then none
  else if stop = start ∨ v.size ≤ start then some (Vector.empty α)
  else
    let stop := if v.size ≤ stop then v.size else stop
    some { size := stop - start, capacity := v.capacity, depth := v.depth,
           offset := start, root := v.root }

/-- `Vector.Size`. -/
def Size (v : Vector α) : Nat := v.size

/-- `Vector.Append`: `Resize(size+1)` then `Set(size, value)`. -/
def Append (v : Vector α) (value : α) : Option (Vector α) :=
  (v.Resize (v.size + 1)).Set v.size value

end Vector

/-- `VectorRange`: the iterator state returned by `Vector.Elements`. -/
structure VectorRange (α : Type) where
  vector : Vector α
  position : Nat := 0
  nodePosition : Nat := 0
  root : Option (vectorNode α) := none
  node : Option (vectorNode α) := none

namespace VectorRange

variable {α : Type}

/-- `VectorRange.Next`: advances to the next element; the `Bool` is the
returned "more elements available" flag and the state records the
mutations of the method's pointer receiver.  On the first call the
iterator latches `vector.root` and forces a descent by setting
`nodePosition` to 32; the descent recomputes `node` from `position`
(note: `position`, not `position + offset`). -/
def Next (vr : VectorRange α) : Bool × VectorRange α :=
  let vr :=
    if vr.root.isNone then
      { vr with root := vr.vector.root, nodePosition := bucketSize }
    else
      { vr with position := vr.position + 1, nodePosition := vr.nodePosition + 1 }
  if vr.position = vr.vector.size then (false, vr)
  else if vr.root.isSome ∧ vr.nodePosition = bucketSize then
    let descended := Vector.descendN vr.root vr.position (vr.vector.depth - 1)
    (true, { vr with nodePosition := 0, node := descended })
  else (true, vr)

/-- `VectorRange.Get`: the element at the current position; a nil `node`
yields Go `nil` (`some none`), otherwise `node.values[nodePosition]`,
which panics (`none`) when the value slice is shorter than the index —
in particular when it is nil. -/
def Get (vr : VectorRange α) : Option (Option α) :=
  match vr.node with
  | none => some none
  | some nd =>
    if vr.nodePosition < nd.values.length then some (nd.values.getD vr.nodePosition none)
    else none

end VectorRange

/-- `Vector.Elements`: a fresh iterator over the vector. -/
def Vector.Elements {α : Type} (v : Vector α) : VectorRange α := { vector := v }

/-- The iterator state after `n` calls to `Next` (each call's returned
flag is examined separately). -/
def Vector.rangeState {α : Type} (v : Vector α) : Nat → VectorRange α
  | 0 => v.Elements
  | n + 1 => (Vector.rangeState v n).Next.2

/-- The leaf node holding position `i` (if present) has an allocated
32-slot values array.  `VectorRange.Get` indexes `node.values` without
the nil check that `Vector.Get` performs, so iteration only agrees with
`Get` on positions satisfying this (it panics on a present leaf with a
nil values slice, such as the never-written spine node left by
`Resize`). -/
def Vector.leafSizedAt {α : Type} (v : Vector α) (i : Nat) : Bool :=
  match Vector.descendN v.root i (v.depth - 1) with
  | none => true
  | some leaf => leaf.values.length == bucketSize

/-! ## Key types and `hashValue` (`hash.go` / the `default` branch of
`hashValue`)

`hashValue` switches on the key's dynamic type: a few fast cases
(string and fixed-width numerics) are encoded directly; every other type
goes through the `default` branch, which panics with
`"Key must be comparable"` exactly when `reflect.TypeOf(key).Comparable()`
is false.  `GoType` is a micro-universe of Go key types and
`goComparable` models Go's comparability rules (an external collaborator
of the repo: the `reflect` standard library): booleans, strings,
numerics, channels and pointers are comparable; slices, maps and
functions are not; an array is comparable iff its element type is; a
struct is comparable iff all its field types are. -/

/-- A micro-universe of Go key types. -/
inductive GoType : Type where
  | stringT
  | intT
  | int32T
  | int64T
  | float32T
  | float64T
  | boolT
  | chanT
  | funcT
  | mapT
  | sliceT
  | ptrT
  | unsafePointerT
  | arrayT (elem : GoType)
  | structT (fields : List GoType)

mutual

/-- Go's `reflect.Type.Comparable()` on the micro-universe. -/
def goComparable : GoType → Bool
  | .stringT => true
  | .intT => true
  | .int32T => true
  | .int64T => true
  | .float32T => true
  | .float64T => true
  | .boolT => true
  | .chanT => true
  | .funcT => false
  | .mapT => false
  | .sliceT => false
  | .ptrT => true
  | .unsafePointerT => true
  | .arrayT elem => goComparable elem
  | .structT fields => goComparableList fields

/-- All field types of a struct are comparable. -/
def goComparableList : List GoType → Bool
  | [] => true
  | t :: rest => goComparable t && goComparableList rest

end

/-- Whether `hashValue` panics with `KeyTypeError` (`"Key must be
comparable"`) on a key of the given type: the fast cases never panic,
and the `default` branch panics exactly on non-comparable types. -/
def hashValuePanics : GoType → Bool
  | .stringT => false
  | .intT => false
  | .int32T => false
  | .int64T => false
  | .float32T => false
  | .float64T => false
  | t => !goComparable t

/-! ## The abstract model used for the `Range` claim -/

/-- Remove every entry with the given key (at most one ever exists in
the lists we build). -/
def eraseKey {κ α : Type} [DecidableEq κ] (key : κ) (l : List (κ × α)) :
    List (κ × α) :=
  l.filter (fun e => decide (e.1 ≠ key))

/-- The abstract result of a sequence of writes: each written key once,
with its most recent value (order irrelevant; results are compared up to
permutation). -/
def lastWrites {κ α : Type} [DecidableEq κ] (ops : List (κ × α)) : List (κ × α) :=
  ops.foldl (fun acc e => e :: eraseKey e.1 acc) []

/-- The most recent value written for a key by a sequence of writes. -/
def lastWritten {κ α : Type} [DecidableEq κ] (ops : List (κ × α)) (key : κ) :
    Option α :=
  (ops.reverse.find? (fun e => decide (e.1 = key))).map (·.2)

/-- The map obtained by folding `Set` over a list of writes, starting
from the zero map. -/
def Map.ofWrites {κ α : Type} [DecidableEq κ] (hash : κ → Nat)
    (ops : List (κ × α)) : Map κ α :=
  ops.foldl (fun m e => m.Set hash e.1 e.2) (Map.empty κ α)

/-- The sequence of `(key, value)` pairs `Map.Range` hands to a visitor
that always returns true (`m.root.visit`, in traversal order). -/
def Map.RangeList {κ α : Type} (m : Map κ α) : List (κ × α) :=
  m.root.toList

/-- The contribution of one (possibly nil) child to the traversal. -/
def optToList {κ α : Type} : Option (bucket κ α) → List (κ × α)
  | none => []
  | some b => b.toList

/-! ## The trie invariant maintained by `Set`

`LeafInv ok V` says the leaf table `V` stores every element in the slot
its hash selects (`hash key / 8^levels % V.length`), only keys allowed
in this subtree (`ok`), and no key twice.  `InvB r b ok` extends this
through the trie: an interior node with `r + 1` levels remaining has nil
values, the fixed 8 child slots, and children whose keys additionally
have the right digit of their hash at this level.  The zero bucket
satisfies the interior invariant trivially and is handled separately at
the leaf level (its values slice is nil). -/

/-- The leaf-table invariant. -/
def LeafInv {κ α : Type} (hash : κ → Nat) (ok : κ → Prop)
    (V : List (List (κ × α))) : Prop :=
  (∀ j, j < V.length → ∀ e ∈ V.getD j [],
    ok e.1 ∧ hash e.1 / bucketCount ^ levels % V.length = j) ∧
  ((V.flatten.map Prod.fst).Nodup)

/-- The subtree invariant, by remaining levels. -/
def InvB {κ α : Type} (hash : κ → Nat) : Nat → bucket κ α → (κ → Prop) → Prop
  | 0, b, ok => 1 ≤ b.values.length ∧ LeafInv hash ok b.values
  | r + 1, b, ok =>
    b.values = [] ∧ b.buckets.length = bucketCount ∧
    ∀ i, i < bucketCount → ∀ c, b.buckets.getD i none = some c →
      InvB hash r c
        (fun k => ok k ∧ hash k / bucketCount ^ (levels - (r + 1)) % bucketCount = i)

/-- The map-level invariant: the root satisfies the trie invariant (or
is still the zero bucket), and the leaf-count bookkeeping is sane. -/
def InvM {κ α : Type} [DecidableEq κ] (hash : κ → Nat) (m : Map κ α) : Prop :=
  (InvB hash levels m.root (fun _ => True) ∨ m.root = bucket.empty) ∧
    (m.capacity = 0 ∨ 1 ≤ m.leafCount)

/-! ## Basic lemmas -/

section BasicLemmas

variable {κ α χ : Type}

@[simp] theorem padCopy_length (n : Nat) (d : χ) (l : List χ) :
    (padCopy n d l).length = n := by
  simp only [padCopy, List.length_append, List.length_take, List.length_replicate]
  omega

theorem padCopy_of_length_eq {n : Nat} {d : χ} {l : List χ}
    (h : l.length = n) : padCopy n d l = l := by
  subst h
  simp [padCopy, List.take_length]

@[simp] theorem getD_set_self (l : List χ) (i : Nat) (x d : χ)
    (h : i < l.length) : (l.set i x).getD i d = x := by
  induction l generalizing i with
  | nil => simp at h
  | cons a t ih =>
    cases i with
    | zero => simp [List.set, List.getD]
    | succ j =>
      simp only [List.set, List.getD, List.get?]
      exact ih j (by simpa using h)

@[simp] theorem getD_set_ne (l : List χ) (i j : Nat) (x d : χ)
    (h : j ≠ i) : (l.set i x).getD j d = l.getD j d := by
  induction l generalizing i j with
  | nil => simp [List.set]
  | cons a t ih =>
    cases i with
    | zero =>
      cases j with
      | zero => exact absurd rfl h
      | succ j' => simp [List.set, List.getD]
    | succ i' =>
      cases j with
      | zero => simp [List.set, List.getD]
      | succ j' =>
        simp only [List.set, List.getD, List.get?]
        exact ih i' j' (fun e => h (by rw [e]))

@[simp] theorem getD_replicate (n i : Nat) (d : χ) :
    (List.replicate n d).getD i d = d := by
  induction n generalizing i with
  | zero => simp [List.getD]
  | succ m ih =>
    cases i with
    | zero => simp [List.replicate, List.getD]
    | succ j =>
      rw [List.replicate_succ, List.getD_cons_succ]
      exact ih j

@[simp] theorem bucket.buckets_mk (b : List (Option (bucket κ α)))
    (v : List (List (κ × α))) : (bucket.mk b v).buckets = b := rfl

@[simp] theorem bucket.values_mk (b : List (Option (bucket κ α)))
    (v : List (List (κ × α))) : (bucket.mk b v).values = v := rfl

@[simp] theorem vectorNode.nodeValues_mk (v : List (Option α))
    (c : List (Option (vectorNode α))) : (vectorNode.mk v c).values = v := rfl

@[simp] theorem vectorNode.children_mk (v : List (Option α))
    (c : List (Option (vectorNode α))) : (vectorNode.mk v c).children = c := rfl

/-- Any fuel at least `log₂ size`-large gives the same `growLoop` result;
in particular fuel `size` (what `Resize` passes) computes the true
fixpoint of the Go loop. -/
theorem growLoop_fuel_irrelevant (fuel extra size capacity depth : Nat)
    (root : Option (vectorNode α)) (h : size ≤ 2 ^ fuel * capacity) :
    Vector.growLoop (fuel + extra) size capacity depth root =
      Vector.growLoop fuel size capacity depth root := by
  induction fuel generalizing capacity depth root extra with
  | zero =>
    simp only [Nat.pow_zero, Nat.one_mul] at h
    cases extra with
    | zero => rfl
    | succ e =>
      have : ¬(capacity < size ∧ capacity ≠ 0) := by omega
      simp [Vector.growLoop, this]
  | succ f ih =>
    by_cases hc : capacity < size ∧ capacity ≠ 0
    · have hstep : size ≤ 2 ^ f * (capacity * bucketSize) := by
        calc size ≤ 2 ^ (f + 1) * capacity := h
        _ = 2 ^ f * (capacity * 2) := by ring
        _ ≤ 2 ^ f * (capacity * bucketSize) := by
            have : capacity * 2 ≤ capacity * bucketSize :=
              Nat.mul_le_mul_left _ (by norm_num [bucketSize])
            exact Nat.mul_le_mul_left _ this
      have heq : f + 1 + extra = (f + extra) + 1 := by omega
      rw [heq]
      show (if capacity < size ∧ capacity ≠ 0 then _ else _) =
        (if capacity < size ∧ capacity ≠ 0 then _ else _)
      rw [if_pos hc, if_pos hc]
      exact ih extra _ _ _ hstep
    · cases extra with
      | zero => rfl
      | succ e => simp [Vector.growLoop, hc]

end BasicLemmas

/-! ## Map lemmas: list scans -/

section MapListLemmas

variable {κ α : Type} [DecidableEq κ]

theorem findValue_replaceFirst (key : κ) (value : α) :
    ∀ (l l' : List (κ × α)), Map.replaceFirst key value l = some l' →
      Map.findValue key l' = some value := by
  intro l
  induction l with
  | nil => intro l' hl; simp [Map.replaceFirst] at hl
  | cons e rest ih =>
    intro l' hl
    by_cases he : e.1 = key
    · simp only [Map.replaceFirst, if_pos he] at hl
      injection hl with hl2
      subst hl2
      simp [Map.findValue, he]
    · simp only [Map.replaceFirst, if_neg he] at hl
      cases hr : Map.replaceFirst key value rest with
      | none => rw [hr] at hl; simp at hl
      | some rl =>
        rw [hr] at hl
        simp only [Option.map_some'] at hl
        injection hl with hl2
        subst hl2
        simp only [Map.findValue, if_neg he]
        exact ih rl hr

theorem replaceFirst_none_iff (key : κ) (value : α) :
    ∀ l : List (κ × α), Map.replaceFirst key value l = none ↔
      Map.findValue key l = none := by
  intro l
  induction l with
  | nil => simp [Map.replaceFirst, Map.findValue]
  | cons e rest ih =>
    by_cases he : e.1 = key
    · simp [Map.replaceFirst, Map.findValue, he]
    · simp only [Map.replaceFirst, Map.findValue, if_neg he, Option.map_eq_none']
      exact ih

theorem findValue_append_single (key : κ) (value : α) :
    ∀ l : List (κ × α), Map.findValue key l = none →
      Map.findValue key (l ++ [(key, value)]) = some value := by
  intro l
  induction l with
  | nil => intro _; simp [Map.findValue]
  | cons e rest ih =>
    intro hnone
    by_cases he : e.1 = key
    · simp [Map.findValue, he] at hnone
    · simp only [Map.findValue, if_neg he] at hnone ⊢
      exact ih hnone

theorem removeFirst_isSome_of_findValue (key : κ) {v : α} :
    ∀ l : List (κ × α), Map.findValue key l = some v →
      (Map.removeFirst key l).isSome = true := by
  intro l
  induction l with
  | nil => intro hl; simp [Map.findValue] at hl
  | cons e rest ih =>
    intro hl
    by_cases he : e.1 = key
    · simp [Map.removeFirst, he]
    · simp only [Map.findValue, if_neg he] at hl
      simp only [Map.removeFirst, if_neg he]
      have := ih hl
      cases hr : Map.removeFirst key rest with
      | none => rw [hr] at this; simp at this
      | some rl => simp

end MapListLemmas

/-! ## Map lemmas: leaf table and walks -/

section MapWalkLemmas

variable {κ α : Type} [DecidableEq κ]

theorem foldl_rehashStep_length (hash : κ → Nat) (lc : Nat)
    (es : List (κ × α)) :
    ∀ acc : List (List (κ × α)),
      (es.foldl (Map.rehashStep hash lc) acc).length = acc.length := by
  induction es with
  | nil => intro acc; rfl
  | cons e rest ih =>
    intro acc
    rw [List.foldl_cons, ih]
    simp [Map.rehashStep]

theorem rehashInto_length (hash : κ → Nat) (lc : Nat)
    (old : List (List (κ × α))) :
    (Map.rehashInto hash lc old).length = lc := by
  unfold Map.rehashInto
  rw [foldl_rehashStep_length]
  exact List.length_replicate _ _

/-- The length of the rebuilt leaf table in `setLeaf` is always the
current `leafCount`. -/
theorem setLeaf_length (hash : κ → Nat) (lc : Nat) (key : κ) (value : α)
    (b : bucket κ α) (hr : Nat) :
    ((Map.setLeaf hash lc key value b hr).1).values.length = lc := by
  unfold Map.setLeaf
  cases hrf : Map.replaceFirst key value
      ((if b.values.length ≠ lc then Map.rehashInto hash lc b.values
        else b.values).getD (hr % lc) []) <;>
  · by_cases hl : b.values.length ≠ lc <;>
      simp_all [List.length_set, rehashInto_length]

/-- After `setLeaf`, the selected slot's list resolves `key` to the
written value. -/
theorem findValue_setLeaf (hash : κ → Nat) (lc : Nat) (key : κ) (value : α)
    (b : bucket κ α) (hr : Nat) (hlc : 1 ≤ lc) :
    Map.findValue key
      (((Map.setLeaf hash lc key value b hr).1).values.getD (hr % lc) []) =
      some value := by
  unfold Map.setLeaf
  set newValues :=
    (if b.values.length ≠ lc then Map.rehashInto hash lc b.values
     else b.values) with hnv
  have hlen : newValues.length = lc := by
    rw [hnv]
    by_cases hl : b.values.length ≠ lc
    · simp [hl, rehashInto_length]
    · simp only [if_neg hl]
      omega
  have hidx : hr % lc < newValues.length := by
    rw [hlen]
    exact Nat.mod_lt _ (by omega)
  cases hrf : Map.replaceFirst key value (newValues.getD (hr % lc) []) with
  | some newList =>
    simp only [hrf]
    rw [bucket.values_mk, getD_set_self _ _ _ _ hidx]
    exact findValue_replaceFirst key value _ newList hrf
  | none =>
    simp only [hrf]
    rw [bucket.values_mk, getD_set_self _ _ _ _ hidx]
    exact findValue_append_single key value _
      ((replaceFirst_none_iff key value _).mp hrf)

theorem sizedTo_empty : ∀ r : Nat, bucket.sizedTo r (bucket.empty : bucket κ α) = true := by
  intro r
  cases r with
  | zero => rfl
  | succ r' =>
    simp only [bucket.sizedTo, bucket.empty, bucket.buckets_mk,
      List.length_replicate, Bool.and_eq_true, beq_self_eq_true, true_and,
      List.all_eq_true]
    intro c hc
    rw [List.eq_of_mem_replicate hc]

theorem sizedTo_child {r : Nat} {b : bucket κ α} {i : Nat} {c : bucket κ α}
    (hs : bucket.sizedTo (r + 1) b = true)
    (hc : b.buckets.getD i none = some c) : bucket.sizedTo r c = true := by
  simp only [bucket.sizedTo, Bool.and_eq_true, List.all_eq_true] at hs
  have hmem : some c ∈ b.buckets := by
    have hlt : i < b.buckets.length := by
      by_contra hge
      rw [List.getD_eq_default _ _ (by omega)] at hc
      exact Option.noConfusion hc
    rw [List.getD_eq_getElem _ _ hlt] at hc
    rw [← hc]
    exact List.getElem_mem _
  exact hs.2 (some c) hmem

/-- The combined `Get`/`Delete` walk correspondence: reading (or
deleting) the key along the same hash digits through the bucket path
freshly built by `setWalk` lands in the leaf that the transformation `f`
produced, with the remaining hash `h / 8^r`. -/
theorem getLoop_delWalk_setWalk (key : κ) (lc : Nat)
    (f : bucket κ α → Nat → bucket κ α × Bool) :
    ∀ (r : Nat) (b : bucket κ α) (h : Nat), bucket.sizedTo r b = true →
      ∃ b' : bucket κ α,
        Map.getLoop key (Map.setWalk f b h r).1 h r =
          Map.getLoop key (f b' (h / bucketCount ^ r)).1 (h / bucketCount ^ r) 0 ∧
        (Map.delWalk key lc (Map.setWalk f b h r).1 h r).isSome =
          (Map.delWalk key lc (f b' (h / bucketCount ^ r)).1
            (h / bucketCount ^ r) 0).isSome := by
  intro r
  induction r with
  | zero =>
    intro b h _
    refine ⟨b, ?_, ?_⟩ <;>
    · rw [Nat.pow_zero, Nat.div_one]
      rfl
  | succ r' ih =>
    intro b h hs
    have hblen : b.buckets.length = bucketCount := by
      simp only [bucket.sizedTo, Bool.and_eq_true, beq_iff_eq] at hs
      exact hs.1
    have hi : h % bucketCount < b.buckets.length := by
      rw [hblen]
      exact Nat.mod_lt _ (by norm_num [bucketCount])
    set next :=
      (match b.buckets.getD (h % bucketCount) none with
       | none => bucket.empty
       | some nb => nb) with hnext
    have hnexts : bucket.sizedTo r' next = true := by
      rw [hnext]
      cases hg : b.buckets.getD (h % bucketCount) none with
      | none => exact sizedTo_empty r'
      | some nb => exact sizedTo_child hs hg
    obtain ⟨b', hget, hdel⟩ := ih next (h / bucketCount) hnexts
    refine ⟨b', ?_, ?_⟩
    · show Map.getLoop key
        (bucket.mk (b.buckets.set (h % bucketCount)
          (some (Map.setWalk f next (h / bucketCount) r').1)) b.values)
        h (r' + 1) = _
      unfold Map.getLoop
      rw [bucket.buckets_mk, getD_set_self _ _ _ _ hi]
      show Map.getLoop key (Map.setWalk f next (h / bucketCount) r').1
        (h / bucketCount) r' = _
      rw [hget, Nat.div_div_eq_div_mul, ← pow_succ']
      rfl
    · show (Map.delWalk key lc
        (bucket.mk (b.buckets.set (h % bucketCount)
          (some (Map.setWalk f next (h / bucketCount) r').1)) b.values)
        h (r' + 1)).isSome = _
      unfold Map.delWalk
      rw [bucket.buckets_mk, getD_set_self _ _ _ _ hi]
      show ((Map.delWalk key lc (Map.setWalk f next (h / bucketCount) r').1
          (h / bucketCount) r').map _).isSome = _
      have hmap : ∀ (g : bucket κ α → bucket κ α) (x : Option (bucket κ α)),
          (x.map g).isSome = x.isSome := by
        intro g x
        cases x <;> rfl
      rw [hmap, hdel, Nat.div_div_eq_div_mul, ← pow_succ']
      rfl

end MapWalkLemmas

/-! ## Claim C3 — `Set`/`Get`/`Delete` round trip -/

/-- C3: for every map whose trie has the fixed 8-slot child arrays
(true of every map the code builds) and a sane leaf count
(`capacity = 0` or `leafCount ≥ 1`, also true of every reachable map):
`m.Set(k,v).Get(k) == (v, true)`, and
`m.Set(k,v).Delete(k).Get(k) == (nil, false)`. -/
theorem C3_set_get_delete_roundtrip (κ α : Type) [DecidableEq κ]
    (hash : κ → Nat) (m : Map κ α)
    (hsized : bucket.sizedTo levels m.root = true)
    (hlc : m.capacity = 0 ∨ 1 ≤ m.leafCount) (key : κ) (value : α) :
    (m.Set hash key value).Get hash key = some value ∧
      ((m.Set hash key value).Delete hash key).Get hash key = none := by
  set lc := (if m.capacity = 0 then leafStartCount
    else if m.capacity ≤ m.size * 2 then m.leafCount * 2
    else m.leafCount) with hlcdef
  have hlc1 : 1 ≤ lc := by
    rw [hlcdef]
    by_cases h0 : m.capacity = 0
    · simp [h0, leafStartCount]
    · rcases hlc with h | h
      · exact absurd h h0
      · by_cases hg : m.capacity ≤ m.size * 2 <;> simp [h0, hg] <;> omega
  have hroot : (Map.Set hash m key value).root =
      (Map.setWalk (Map.setLeaf hash lc key value) m.root (hash key) levels).1 := by
    rw [hlcdef]
    rfl
  have hlcfield : (Map.Set hash m key value).leafCount = lc := by
    rw [hlcdef]
    rfl
  have hcap : ¬((Map.Set hash m key value).capacity = 0) := by
    show ¬((if m.capacity = 0 then mapCapacity leafStartCount
      else if m.capacity ≤ m.size * 2 then m.capacity * 2
      else m.capacity) = 0)
    by_cases h0 : m.capacity = 0
    · simp [h0, mapCapacity, bucketCount, levels, leafStartCount]
    · by_cases hg : m.capacity ≤ m.size * 2 <;> simp [h0, hg] <;> omega
  obtain ⟨b', hget, hdel⟩ := getLoop_delWalk_setWalk key lc
    (Map.setLeaf hash lc key value) levels m.root (hash key) hsized
  have hfv := findValue_setLeaf hash lc key value b'
    (hash key / bucketCount ^ levels) hlc1
  have hlen := setLeaf_length hash lc key value b' (hash key / bucketCount ^ levels)
  constructor
  · unfold Map.Get
    rw [if_neg hcap, hroot, hget]
    unfold Map.getLoop
    rw [hlen, if_neg (by omega)]
    exact hfv
  · have hsome : (Map.delWalk key lc
        (Map.setLeaf hash lc key value b' (hash key / bucketCount ^ levels)).1
        (hash key / bucketCount ^ levels) 0).isSome = true := by
      have hrm := removeFirst_isSome_of_findValue key _ hfv
      unfold Map.delWalk
      simp only [padCopy_of_length_eq hlen, hlen]
      rw [if_neg (show ¬(lc = 0) by omega)]
      cases hrf : Map.removeFirst key
          (((Map.setLeaf hash lc key value b'
            (hash key / bucketCount ^ levels)).1).values.getD
            (hash key / bucketCount ^ levels % lc) []) with
      | none => rw [hrf] at hrm; simp at hrm
      | some nl => simp
    unfold Map.Delete
    rw [if_neg hcap, hlcfield, hroot]
    have houter := hdel.trans hsome
    obtain ⟨nr, hnr⟩ := Option.isSome_iff_exists.mp houter
    rw [hnr]
    rfl

/-- C3 witness: the zero map, identity hash, key 5, value 7. -/
theorem C3_witness :
    bucket.sizedTo levels (Map.empty Nat Nat).root = true ∧
      ((Map.empty Nat Nat).Set (fun n => n) 5 7).Get (fun n => n) 5 = some 7 ∧
      (((Map.empty Nat Nat).Set (fun n => n) 5 7).Delete (fun n => n) 5).Get
        (fun n => n) 5 = none := by
  refine ⟨by decide, ?_, ?_⟩
  · exact (C3_set_get_delete_roundtrip Nat Nat (fun n => n) (Map.empty Nat Nat)
      (by decide) (Or.inl rfl) 5 7).1
  · exact (C3_set_get_delete_roundtrip Nat Nat (fun n => n) (Map.empty Nat Nat)
      (by decide) (Or.inl rfl) 5 7).2

/-! ## Lemmas towards the `Range` claim: lists -/

section RangeListLemmas

variable {κ α : Type} [DecidableEq κ]

theorem eraseKey_of_forall_ne (key : κ) (l : List (κ × α))
    (h : ∀ e ∈ l, e.1 ≠ key) : eraseKey key l = l :=
  List.filter_eq_self.mpr (fun e he => by simpa using h e he)

theorem eraseKey_append (key : κ) (l1 l2 : List (κ × α)) :
    eraseKey key (l1 ++ l2) = eraseKey key l1 ++ eraseKey key l2 :=
  List.filter_append _ _

theorem Perm.eraseKey_congr (key : κ) {l1 l2 : List (κ × α)} (h : l1.Perm l2) :
    (eraseKey key l1).Perm (eraseKey key l2) :=
  h.filter _

theorem mem_eraseKey {key : κ} {e : κ × α} {l : List (κ × α)} :
    e ∈ eraseKey key l ↔ e ∈ l ∧ e.1 ≠ key := by
  simp [eraseKey, List.mem_filter]

theorem findValue_none_iff (key : κ) (l : List (κ × α)) :
    Map.findValue key l = none ↔ ∀ e ∈ l, e.1 ≠ key := by
  induction l with
  | nil => simp [Map.findValue]
  | cons e rest ih =>
    by_cases he : e.1 = key
    · simp [Map.findValue, he]
    · simp [Map.findValue, he, ih]

/-- `replaceFirst`, on a list with no duplicate keys, is a permutation
of writing the new binding in front of the erased list. -/
theorem replaceFirst_perm (key : κ) (value : α) :
    ∀ (l l' : List (κ × α)), (l.map Prod.fst).Nodup →
      Map.replaceFirst key value l = some l' →
      l'.Perm ((key, value) :: eraseKey key l) := by
  intro l
  induction l with
  | nil => intro l' _ hl; simp [Map.replaceFirst] at hl
  | cons e rest ih =>
    intro l' hnd hl
    have hnd' : (rest.map Prod.fst).Nodup := (List.nodup_cons.mp hnd).2
    by_cases he : e.1 = key
    · simp only [Map.replaceFirst, if_pos he] at hl
      injection hl with hl2
      subst hl2
      have hrest : eraseKey key rest = rest := by
        refine eraseKey_of_forall_ne key rest (fun x hx hc => ?_)
        have hnotin := (List.nodup_cons.mp hnd).1
        rw [he] at hnotin
        exact hnotin (hc ▸ List.mem_map_of_mem Prod.fst hx)
      have herase : eraseKey key (e :: rest) = rest := by
        have h1 : eraseKey key (e :: rest) = eraseKey key rest := by
          simp [eraseKey, List.filter_cons, he]
        rw [h1, hrest]
      rw [herase, he]
    · simp only [Map.replaceFirst, if_neg he] at hl
      cases hr : Map.replaceFirst key value rest with
      | none => rw [hr] at hl; simp at hl
      | some rl =>
        rw [hr] at hl
        simp only [Option.map_some'] at hl
        injection hl with hl2
        subst hl2
        have hperm := ih rl hnd' hr
        have herase : eraseKey key (e :: rest) = e :: eraseKey key rest := by
          simp [eraseKey, List.filter_cons, he]
        rw [herase]
        exact (hperm.cons e).trans (List.Perm.swap _ _ _)

theorem flatten_set_perm {χ : Type} :
    ∀ (L : List (List χ)) (i : Nat) (x : List χ), i < L.length →
      ((L.set i x).flatten).Perm (x ++ (L.set i []).flatten) := by
  intro L
  induction L with
  | nil => intro i x hi; simp at hi
  | cons l rest ih =>
    intro i x hi
    cases i with
    | zero => simp
    | succ j =>
      simp only [List.set, List.flatten_cons]
      have ihj := ih j x (by simpa using hi)
      have h1 : (l ++ (rest.set j x).flatten).Perm
          (l ++ (x ++ (rest.set j []).flatten)) := ihj.append_left l
      have h2 : (l ++ (x ++ (rest.set j []).flatten)).Perm
          (x ++ (l ++ (rest.set j []).flatten)) := by
        rw [← List.append_assoc, ← List.append_assoc]
        exact List.perm_append_comm.append_right _
      exact h1.trans h2

theorem set_getD_self {χ : Type} :
    ∀ (L : List (List χ)) (i : Nat), i < L.length →
      L.set i (L.getD i []) = L := by
  intro L
  induction L with
  | nil => intro i hi; simp at hi
  | cons l rest ih =>
    intro i hi
    cases i with
    | zero => simp [List.getD]
    | succ j =>
      simp only [List.set, List.getD_cons_succ]
      rw [ih j (by simpa using hi)]

theorem flatten_getD_perm {χ : Type} (L : List (List χ)) (i : Nat)
    (hi : i < L.length) :
    (L.flatten).Perm (L.getD i [] ++ (L.set i []).flatten) := by
  have h1 := flatten_set_perm L i (L.getD i []) hi
  rw [set_getD_self L i hi] at h1
  exact h1

theorem forall_getD_of_mem_flatten {χ : Type} {L : List (List χ)} {e : χ}
    (he : e ∈ L.flatten) : ∃ j, j < L.length ∧ e ∈ L.getD j [] := by
  obtain ⟨l, hl, hel⟩ := List.mem_flatten.mp he
  obtain ⟨j, hj, hget⟩ := List.mem_iff_getElem.mp hl
  exact ⟨j, hj, by rw [List.getD_eq_getElem _ _ hj, hget]; exact hel⟩

end RangeListLemmas

/-! ## Lemmas towards the `Range` claim: traversal and the invariant -/

section RangeTrieLemmas

variable {κ α : Type} [DecidableEq κ]

theorem toListChildren_eq (l : List (Option (bucket κ α))) :
    toListChildren l = (l.map optToList).flatten := by
  induction l with
  | nil => rfl
  | cons c rest ih =>
    cases c with
    | none =>
      show toListChildren rest = ([] : List (κ × α)) ++ _
      rw [List.nil_append]
      exact ih
    | some b =>
      show b.toList ++ toListChildren rest = b.toList ++ _
      rw [ih]

theorem toListChildren_replicate_none (n : Nat) :
    toListChildren (List.replicate n (none : Option (bucket κ α))) = [] := by
  induction n with
  | zero => rfl
  | succ m ih =>
    rw [List.replicate_succ]
    exact ih

theorem toList_empty : (bucket.empty : bucket κ α).toList = [] := by
  show (bucket.mk (List.replicate bucketCount none) []).toList = []
  rw [show (bucket.mk (List.replicate bucketCount none) ([] : List (List (κ × α)))).toList
    = toListChildren (List.replicate bucketCount none) from rfl]
  exact toListChildren_replicate_none _

theorem toList_leaf (b : bucket κ α) (h : 1 ≤ b.values.length) :
    b.toList = b.values.flatten := by
  cases b with
  | mk buckets values =>
    show (if values.length > 0 then values.flatten else toListChildren buckets) = _
    rw [if_pos (by simpa using h)]
    rfl

theorem toList_interior (b : bucket κ α) (h : b.values = []) :
    b.toList = toListChildren b.buckets := by
  cases b with
  | mk buckets values =>
    simp only [bucket.values_mk] at h
    subst h
    rfl

theorem flatten_replicate_nil {χ : Type} (n : Nat) :
    (List.replicate n ([] : List χ)).flatten = [] := by
  induction n with
  | zero => rfl
  | succ m ih =>
    rw [List.replicate_succ, List.flatten_cons, ih]
    rfl

/-- Every key reached by the traversal of an invariant-satisfying
subtree is allowed in that subtree. -/
theorem InvB_mem_ok (hash : κ → Nat) :
    ∀ (r : Nat) (b : bucket κ α) (ok : κ → Prop), InvB hash r b ok →
      ∀ e ∈ b.toList, ok e.1 := by
  intro r
  induction r with
  | zero =>
    intro b ok hinv e he
    obtain ⟨hlen, hplace, _⟩ := hinv
    rw [toList_leaf b hlen] at he
    obtain ⟨j, hj, hmem⟩ := forall_getD_of_mem_flatten he
    exact (hplace j hj e hmem).1
  | succ r' ih =>
    intro b ok hinv e he
    obtain ⟨hv, hblen, hch⟩ := hinv
    rw [toList_interior b hv, toListChildren_eq] at he
    obtain ⟨j, hj, hmem⟩ := forall_getD_of_mem_flatten he
    rw [List.length_map] at hj
    rw [show ([] : List (κ × α)) = optToList none from rfl, List.getD_map] at hmem
    cases hc : b.buckets.getD j none with
    | none => rw [hc] at hmem; exact absurd hmem (by simp [optToList])
    | some c =>
      rw [hc] at hmem
      have hjb : j < bucketCount := by rw [hblen] at hj; exact hj
      have hcinv := hch j hjb c hc
      exact (ih c _ hcinv e hmem).1

theorem foldl_rehashStep_flatten_perm (hash : κ → Nat) (lc : Nat) (hlc : 1 ≤ lc) :
    ∀ (es : List (κ × α)) (acc : List (List (κ × α))), acc.length = lc →
      ((es.foldl (Map.rehashStep hash lc) acc).flatten).Perm (acc.flatten ++ es) := by
  intro es
  induction es with
  | nil => intro acc _; simp
  | cons e rest ih =>
    intro acc hlen
    rw [List.foldl_cons]
    have hj : hash e.1 / bucketCount ^ levels % lc < acc.length := by
      rw [hlen]
      exact Nat.mod_lt _ (by omega)
    have hstep : ((Map.rehashStep hash lc acc e).flatten).Perm (acc.flatten ++ [e]) := by
      unfold Map.rehashStep
      have h7 := flatten_set_perm acc (hash e.1 / bucketCount ^ levels % lc)
        (acc.getD (hash e.1 / bucketCount ^ levels % lc) [] ++ [e]) hj
      have h8 := flatten_getD_perm acc (hash e.1 / bucketCount ^ levels % lc) hj
      refine h7.trans ?_
      rw [List.append_assoc]
      have hswap : (([e] : List (κ × α)) ++
          (acc.set (hash e.1 / bucketCount ^ levels % lc) []).flatten).Perm
          ((acc.set (hash e.1 / bucketCount ^ levels % lc) []).flatten ++ [e]) :=
        List.perm_append_comm
      refine ((hswap.append_left _).trans ?_)
      rw [← List.append_assoc]
      exact (h8.symm.append_right _)
    have hlen' : (Map.rehashStep hash lc acc e).length = lc := by
      unfold Map.rehashStep
      rw [List.length_set, hlen]
    have := ih (Map.rehashStep hash lc acc e) hlen'
    refine this.trans ?_
    refine (hstep.append_right rest).trans ?_
    rw [List.append_assoc]
    rfl

theorem foldl_rehashStep_placement (hash : κ → Nat) (lc : Nat) (hlc : 1 ≤ lc) :
    ∀ (es : List (κ × α)) (acc : List (List (κ × α))), acc.length = lc →
      ∀ j, j < lc → ∀ e' ∈ (es.foldl (Map.rehashStep hash lc) acc).getD j [],
        e' ∈ acc.getD j [] ∨
          (e' ∈ es ∧ hash e'.1 / bucketCount ^ levels % lc = j) := by
  intro es
  induction es with
  | nil => intro acc _ j _ e' he'; exact Or.inl he'
  | cons e rest ih =>
    intro acc hlen j hj e' he'
    rw [List.foldl_cons] at he'
    have hlen' : (Map.rehashStep hash lc acc e).length = lc := by
      unfold Map.rehashStep
      rw [List.length_set, hlen]
    have hje : hash e.1 / bucketCount ^ levels % lc < acc.length := by
      rw [hlen]
      exact Nat.mod_lt _ (by omega)
    rcases ih (Map.rehashStep hash lc acc e) hlen' j hj e' he' with hacc | hrest
    · unfold Map.rehashStep at hacc
      by_cases hjj : j = hash e.1 / bucketCount ^ levels % lc
      · subst hjj
        rw [getD_set_self _ _ _ _ hje] at hacc
        rcases List.mem_append.mp hacc with hold | hnew
        · exact Or.inl hold
        · have : e' = e := by simpa using hnew
          subst this
          exact Or.inr ⟨List.mem_cons_self _ _, rfl⟩
      · rw [getD_set_ne _ _ _ _ _ hjj] at hacc
        exact Or.inl hacc
    · exact Or.inr ⟨List.mem_cons_of_mem _ hrest.1, hrest.2⟩

/-- Redistribution into a fresh `leafCount`-slot table preserves the
leaf invariant and the stored multiset. -/
theorem rehashInto_inv (hash : κ → Nat) (lc : Nat) (hlc : 1 ≤ lc)
    (ok : κ → Prop) (V : List (List (κ × α))) (hLV : LeafInv hash ok V) :
    LeafInv hash ok (Map.rehashInto hash lc V) ∧
      ((Map.rehashInto hash lc V).flatten).Perm V.flatten ∧
      (Map.rehashInto hash lc V).length = lc := by
  have hlen : (Map.rehashInto hash lc V).length = lc := rehashInto_length hash lc V
  have hperm : ((Map.rehashInto hash lc V).flatten).Perm V.flatten := by
    have := foldl_rehashStep_flatten_perm hash lc hlc V.flatten
      (List.replicate lc []) (by simp)
    unfold Map.rehashInto
    refine this.trans ?_
    rw [flatten_replicate_nil, List.nil_append]
  have hmemok : ∀ e ∈ V.flatten, ok e.1 := by
    intro e he
    obtain ⟨j, hj, hmem⟩ := forall_getD_of_mem_flatten he
    exact (hLV.1 j hj e hmem).1
  refine ⟨⟨?_, ?_⟩, hperm, hlen⟩
  · intro j hj e he
    rw [hlen] at hj
    have := foldl_rehashStep_placement hash lc hlc V.flatten
      (List.replicate lc []) (by simp) j hj e (by
        unfold Map.rehashInto at he
        exact he)
    rcases this with habs | ⟨hmem, hslot⟩
    · rw [getD_replicate] at habs
      exact absurd habs (List.not_mem_nil e)
    · exact ⟨hmemok e hmem, by rw [hlen]; exact hslot⟩
  · have hkeys : (((Map.rehashInto hash lc V).flatten).map Prod.fst).Perm
        ((V.flatten).map Prod.fst) := hperm.map _
    exact hkeys.nodup_iff.mpr hLV.2

/-- Replacing the hash-selected slot with a list that is, up to
permutation, the new binding consed onto the erased old slot, preserves
the leaf invariant and rewrites the stored multiset accordingly. -/
theorem slotUpdate_inv (hash : κ → Nat) (lc : Nat) (hlc : 1 ≤ lc) (key : κ)
    (value : α) (ok : κ → Prop) (V : List (List (κ × α)))
    (hLV : LeafInv hash ok V) (hlen : V.length = lc) (hok : ok key)
    (newList : List (κ × α))
    (hperm : newList.Perm ((key, value) ::
      eraseKey key (V.getD (hash key / bucketCount ^ levels % lc) []))) :
    (1 ≤ (V.set (hash key / bucketCount ^ levels % lc) newList).length ∧
      LeafInv hash ok (V.set (hash key / bucketCount ^ levels % lc) newList)) ∧
    ((V.set (hash key / bucketCount ^ levels % lc) newList).flatten).Perm
      ((key, value) :: eraseKey key V.flatten) := by
  have hvi : hash key / bucketCount ^ levels % lc < V.length := by
    rw [hlen]
    exact Nat.mod_lt _ (by omega)
  have hother : ∀ e ∈ (V.set (hash key / bucketCount ^ levels % lc) []).flatten,
      e.1 ≠ key := by
    intro e he
    obtain ⟨j, hj, hmem⟩ := forall_getD_of_mem_flatten he
    rw [List.length_set] at hj
    by_cases hjj : j = hash key / bucketCount ^ levels % lc
    · subst hjj
      rw [getD_set_self _ _ _ _ hj] at hmem
      exact absurd hmem (List.not_mem_nil e)
    · rw [getD_set_ne _ _ _ _ _ hjj] at hmem
      intro hcon
      have hplace := (hLV.1 j hj e hmem).2
      rw [hcon, hlen] at hplace
      exact hjj hplace.symm
  have herV : (eraseKey key V.flatten).Perm
      (eraseKey key (V.getD (hash key / bucketCount ^ levels % lc) []) ++
        (V.set (hash key / bucketCount ^ levels % lc) []).flatten) := by
    have h8 := flatten_getD_perm V (hash key / bucketCount ^ levels % lc) hvi
    refine (Perm.eraseKey_congr key h8).trans ?_
    rw [eraseKey_append]
    rw [eraseKey_of_forall_ne key _ hother]
  have hflat : ((V.set (hash key / bucketCount ^ levels % lc) newList).flatten).Perm
      ((key, value) :: eraseKey key V.flatten) := by
    refine (flatten_set_perm V _ newList hvi).trans ?_
    refine ((hperm.append_right _).trans ?_)
    rw [List.cons_append]
    exact ((herV.symm).cons (key, value))
  refine ⟨⟨by rw [List.length_set]; omega, ?_, ?_⟩, hflat⟩
  · intro j hj e hmem
    rw [List.length_set] at hj ⊢
    by_cases hjj : j = hash key / bucketCount ^ levels % lc
    · subst hjj
      rw [getD_set_self _ _ _ _ hj] at hmem
      rcases List.mem_cons.mp ((hperm.mem_iff).mp hmem) with hkey | hrest
      · subst hkey
        exact ⟨hok, by rw [hlen]⟩
      · have hlmem : e ∈ V.getD (hash key / bucketCount ^ levels % lc) [] :=
          (mem_eraseKey.mp hrest).1
        exact hLV.1 _ hj e hlmem
    · rw [getD_set_ne _ _ _ _ _ hjj] at hmem
      exact hLV.1 j hj e hmem
  · have hkeys := hflat.map Prod.fst
    refine hkeys.nodup_iff.mpr ?_
    rw [List.map_cons]
    refine List.nodup_cons.mpr ⟨?_, ?_⟩
    · intro hcon
      obtain ⟨e, hemem, heq⟩ := List.mem_map.mp hcon
      exact (mem_eraseKey.mp hemem).2 heq
    · exact List.Nodup.sublist
        ((List.filter_sublist _).map Prod.fst) hLV.2

/-- The result of `setLeaf`, with its lets expanded. -/
theorem setLeaf_eq (hash : κ → Nat) (lc : Nat) (key : κ) (value : α)
    (b : bucket κ α) (h : Nat) :
    Map.setLeaf hash lc key value b h =
      match Map.replaceFirst key value
        ((if b.values.length ≠ lc then Map.rehashInto hash lc b.values
          else b.values).getD (h % lc) []) with
      | some nl =>
        (bucket.mk b.buckets
          ((if b.values.length ≠ lc then Map.rehashInto hash lc b.values
            else b.values).set (h % lc) nl), false)
      | none =>
        (bucket.mk b.buckets
          ((if b.values.length ≠ lc then Map.rehashInto hash lc b.values
            else b.values).set (h % lc)
            ((if b.values.length ≠ lc then Map.rehashInto hash lc b.values
              else b.values).getD (h % lc) [] ++ [(key, value)])), true) := rfl

/-- The leaf step of `Set` preserves the leaf invariant and conses the
new binding onto the erased stored multiset. -/
theorem setLeaf_perm_inv (hash : κ → Nat) (lc : Nat) (hlc : 1 ≤ lc)
    (key : κ) (value : α) (ok : κ → Prop) (b : bucket κ α)
    (hLV : LeafInv hash ok b.values) (hok : ok key) :
    (1 ≤ ((Map.setLeaf hash lc key value b
        (hash key / bucketCount ^ levels)).1).values.length ∧
      LeafInv hash ok ((Map.setLeaf hash lc key value b
        (hash key / bucketCount ^ levels)).1).values) ∧
    (((Map.setLeaf hash lc key value b
        (hash key / bucketCount ^ levels)).1).values.flatten).Perm
      ((key, value) :: eraseKey key b.values.flatten) := by
  have hA : LeafInv hash ok
        (if b.values.length ≠ lc then Map.rehashInto hash lc b.values
         else b.values) ∧
      (if b.values.length ≠ lc then Map.rehashInto hash lc b.values
       else b.values).length = lc ∧
      ((if b.values.length ≠ lc then Map.rehashInto hash lc b.values
        else b.values).flatten).Perm b.values.flatten := by
    by_cases hne : b.values.length ≠ lc
    · rw [if_pos hne]
      obtain ⟨h1, h2, h3⟩ := rehashInto_inv hash lc hlc ok b.values hLV
      exact ⟨h1, h3, h2⟩
    · rw [if_neg hne]
      exact ⟨hLV, by omega, List.Perm.refl _⟩
  obtain ⟨hLV', hlen', hpermA⟩ := hA
  rw [setLeaf_eq]
  set V := (if b.values.length ≠ lc then Map.rehashInto hash lc b.values
    else b.values) with hV
  have hnodlist : ((V.getD (hash key / bucketCount ^ levels % lc) []).map
      Prod.fst).Nodup := by
    have hvi : hash key / bucketCount ^ levels % lc < V.length := by
      rw [hlen']
      exact Nat.mod_lt _ (by omega)
    have hmemV : V.getD (hash key / bucketCount ^ levels % lc) [] ∈ V := by
      rw [List.getD_eq_getElem _ _ hvi]
      exact List.getElem_mem _
    exact List.Nodup.sublist
      ((List.sublist_flatten_of_mem hmemV).map Prod.fst) hLV'.2
  cases hrf : Map.replaceFirst key value
      (V.getD (hash key / bucketCount ^ levels % lc) []) with
  | some newList =>
    have hnl := replaceFirst_perm key value _ newList hnodlist hrf
    obtain ⟨hinv, hflat⟩ := slotUpdate_inv hash lc hlc key value ok V hLV'
      hlen' hok newList hnl
    exact ⟨⟨hinv.1, hinv.2⟩,
      hflat.trans ((Perm.eraseKey_congr key hpermA).cons (key, value))⟩
  | none =>
    have hfindnone : Map.findValue key
        (V.getD (hash key / bucketCount ^ levels % lc) []) = none :=
      (replaceFirst_none_iff key value _).mp hrf
    have hnl : ((V.getD (hash key / bucketCount ^ levels % lc) []) ++
        [(key, value)]).Perm ((key, value) ::
          eraseKey key (V.getD (hash key / bucketCount ^ levels % lc) [])) := by
      rw [eraseKey_of_forall_ne key _ ((findValue_none_iff key _).mp hfindnone)]
      exact List.perm_append_singleton _ _
    obtain ⟨hinv, hflat⟩ := slotUpdate_inv hash lc hlc key value ok V hLV'
      hlen' hok _ hnl
    exact ⟨⟨hinv.1, hinv.2⟩,
      hflat.trans ((Perm.eraseKey_congr key hpermA).cons (key, value))⟩

/-- The copy-on-write descent of `Set` preserves the subtree invariant
and conses the new binding onto the erased traversal, at every level.
`r` is the number of remaining levels (`levels` at the root), and the
hash argument at this depth is `hash key / 8^(levels - r)`. -/
theorem setWalk_perm_inv (hash : κ → Nat) (lc : Nat) (hlc : 1 ≤ lc)
    (key : κ) (value : α) :
    ∀ (r : Nat), r ≤ levels → ∀ (b : bucket κ α) (ok : κ → Prop),
      (InvB hash r b ok ∨ b = bucket.empty) → ok key →
      InvB hash r (Map.setWalk (Map.setLeaf hash lc key value) b
        (hash key / bucketCount ^ (levels - r)) r).1 ok ∧
      ((Map.setWalk (Map.setLeaf hash lc key value) b
        (hash key / bucketCount ^ (levels - r)) r).1).toList.Perm
        ((key, value) :: eraseKey key b.toList) := by
  intro r
  induction r with
  | zero =>
    intro _ b ok hpre hok
    have hLV : LeafInv hash ok b.values := by
      rcases hpre with hinv | hemp
      · exact hinv.2
      · subst hemp
        refine ⟨?_, ?_⟩
        · intro j hj
          rw [show (bucket.empty : bucket κ α).values = [] from rfl] at hj
          simp at hj
        · rw [show (bucket.empty : bucket κ α).values = [] from rfl]
          simp
    obtain ⟨⟨hlen1, hLV'⟩, hperm⟩ :=
      setLeaf_perm_inv hash lc hlc key value ok b hLV hok
    have hbflat : b.toList = b.values.flatten := by
      rcases hpre with hinv | hemp
      · exact toList_leaf b hinv.1
      · subst hemp
        rw [toList_empty]
        rfl
    refine ⟨⟨hlen1, hLV'⟩, ?_⟩
    rw [show (Map.setWalk (Map.setLeaf hash lc key value) b
      (hash key / bucketCount ^ (levels - 0)) 0) =
      Map.setLeaf hash lc key value b (hash key / bucketCount ^ levels) from rfl]
    rw [toList_leaf _ hlen1, hbflat]
    exact hperm
  | succ r' ih =>
    intro hr b ok hpre hok
    have hbv : b.values = [] := by
      rcases hpre with hinv | hemp
      · exact hinv.1
      · subst hemp; rfl
    have hblen : b.buckets.length = bucketCount := by
      rcases hpre with hinv | hemp
      · exact hinv.2.1
      · subst hemp; simp [bucket.empty]
    have hchild : ∀ j, j < bucketCount → ∀ c, b.buckets.getD j none = some c →
        InvB hash r' c (fun k => ok k ∧
          hash k / bucketCount ^ (levels - (r' + 1)) % bucketCount = j) := by
      rcases hpre with hinv | hemp
      · exact hinv.2.2
      · subst hemp
        intro j hj c hc
        rw [show (bucket.empty : bucket κ α).buckets = List.replicate bucketCount none
          from rfl, getD_replicate] at hc
        exact Option.noConfusion hc
    set H := hash key / bucketCount ^ (levels - (r' + 1)) with hH
    set i := H % bucketCount with hidef
    have hi8 : i < bucketCount := Nat.mod_lt _ (by norm_num [bucketCount])
    have hib : i < b.buckets.length := by omega
    set next := (match b.buckets.getD i none with
      | none => bucket.empty
      | some nb => nb : bucket κ α) with hnext
    have hdivstep : H / bucketCount = hash key / bucketCount ^ (levels - r') := by
      have hexp : levels - (r' + 1) + 1 = levels - r' := by omega
      rw [hH, Nat.div_div_eq_div_mul, ← pow_succ, hexp]
    have hpre' : InvB hash r' next (fun k => ok k ∧
        hash k / bucketCount ^ (levels - (r' + 1)) % bucketCount = i) ∨
        next = bucket.empty := by
      rw [hnext]
      cases hc : b.buckets.getD i none with
      | none => exact Or.inr rfl
      | some c => exact Or.inl (hchild i hi8 c hc)
    have hok' : ok key ∧
        hash key / bucketCount ^ (levels - (r' + 1)) % bucketCount = i :=
      ⟨hok, rfl⟩
    have hsub := ih (by omega) next _ hpre' hok'
    obtain ⟨hsubinv, hsubperm⟩ := hsub
    have hwalk : (Map.setWalk (Map.setLeaf hash lc key value) b H (r' + 1)).1 =
        bucket.mk (b.buckets.set i
          (some (Map.setWalk (Map.setLeaf hash lc key value) next
            (H / bucketCount) r').1)) b.values := rfl
    rw [hwalk, hdivstep]
    set sub := (Map.setWalk (Map.setLeaf hash lc key value) next
      (hash key / bucketCount ^ (levels - r')) r').1 with hsubdef
    constructor
    · refine ⟨by rw [bucket.values_mk]; exact hbv,
        by rw [bucket.buckets_mk, List.length_set]; exact hblen, ?_⟩
      intro j hj c hc
      rw [bucket.buckets_mk] at hc
      by_cases hji : j = i
      · subst hji
        rw [getD_set_self _ _ _ _ hib] at hc
        injection hc with hc2
        subst hc2
        exact hsubinv
      · rw [getD_set_ne _ _ _ _ _ hji] at hc
        exact hchild j hj c hc
    · have hW : (bucket.mk (b.buckets.set i (some sub)) b.values).toList =
          ((b.buckets.map optToList).set i sub.toList).flatten := by
        rw [toList_interior _ (by rw [bucket.values_mk]; exact hbv),
          bucket.buckets_mk, toListChildren_eq, List.map_set]
        rfl
      have hmaplen : i < (b.buckets.map optToList).length := by
        rw [List.length_map]
        exact hib
      have hWperm : ((bucket.mk (b.buckets.set i (some sub)) b.values).toList).Perm
          (sub.toList ++ ((b.buckets.map optToList).set i []).flatten) := by
        rw [hW]
        exact flatten_set_perm _ _ _ hmaplen
      have hnextToList : next.toList = (b.buckets.map optToList).getD i [] := by
        rw [show ([] : List (κ × α)) = optToList none from rfl, List.getD_map, hnext]
        cases hc : b.buckets.getD i none with
        | none => rw [toList_empty]; rfl
        | some c => rfl
      have hbperm : b.toList.Perm
          (next.toList ++ ((b.buckets.map optToList).set i []).flatten) := by
        rw [toList_interior _ hbv, toListChildren_eq, hnextToList]
        exact flatten_getD_perm _ _ hmaplen
      have hFne : ∀ e ∈ ((b.buckets.map optToList).set i []).flatten, e.1 ≠ key := by
        intro e he
        obtain ⟨j, hj, hmem⟩ := forall_getD_of_mem_flatten he
        rw [List.length_set, List.length_map] at hj
        by_cases hji : j = i
        · subst hji
          rw [getD_set_self _ _ _ _ hmaplen] at hmem
          exact absurd hmem (List.not_mem_nil e)
        · rw [getD_set_ne _ _ _ _ _ hji,
            show ([] : List (κ × α)) = optToList none from rfl, List.getD_map] at hmem
          cases hc : b.buckets.getD j none with
          | none => rw [hc] at hmem; exact absurd hmem (by simp [optToList])
          | some c =>
            rw [hc] at hmem
            have hj8 : j < bucketCount := by omega
            have hokmem := InvB_mem_ok hash r' c _ (hchild j hj8 c hc) e hmem
            intro hcon
            rw [hcon] at hokmem
            exact hji hokmem.2.symm
      refine hWperm.trans ?_
      have herase : (eraseKey key b.toList).Perm
          (eraseKey key next.toList ++
            ((b.buckets.map optToList).set i []).flatten) := by
        refine (Perm.eraseKey_congr key hbperm).trans ?_
        rw [eraseKey_append, eraseKey_of_forall_ne key _ hFne]
      refine ((hsubperm.append_right _).trans ?_)
      rw [List.cons_append]
      exact (herase.symm).cons (key, value)

end RangeTrieLemmas

/-! ## Lemmas towards the `Range` claim: the map level and the abstract
model of repeated writes -/

section OfWritesLemmas

variable {κ α : Type} [DecidableEq κ]

/-- `Set` preserves the map invariant, and permutes the traversal into
the new binding followed by the old traversal with the key erased. -/
theorem Set_invM_rangePerm (hash : κ → Nat) (m : Map κ α) (key : κ) (value : α)
    (hm : InvM hash m) :
    InvM hash (Map.Set hash m key value) ∧
    (Map.Set hash m key value).RangeList.Perm
      ((key, value) :: eraseKey key m.RangeList) := by
  set lc := (if m.capacity = 0 then leafStartCount
    else if m.capacity ≤ m.size * 2 then m.leafCount * 2
    else m.leafCount) with hlcdef
  have hlc1 : 1 ≤ lc := by
    rw [hlcdef]
    by_cases h0 : m.capacity = 0
    · simp [h0, leafStartCount]
    · rcases hm.2 with h | h
      · exact absurd h h0
      · by_cases hg : m.capacity ≤ m.size * 2 <;> simp [h0, hg] <;> omega
  have hroot : (Map.Set hash m key value).root =
      (Map.setWalk (Map.setLeaf hash lc key value) m.root (hash key) levels).1 := by
    rw [hlcdef]
    rfl
  have hlcfield : (Map.Set hash m key value).leafCount = lc := by
    rw [hlcdef]
    rfl
  have hh : hash key / bucketCount ^ (levels - levels) = hash key := by
    rw [Nat.sub_self, pow_zero, Nat.div_one]
  have hmain := setWalk_perm_inv hash lc hlc1 key value levels (le_refl levels)
    m.root (fun _ => True) hm.1 trivial
  rw [hh] at hmain
  refine ⟨⟨Or.inl ?_, Or.inr ?_⟩, ?_⟩
  · rw [hroot]
    exact hmain.1
  · rw [hlcfield]
    exact hlc1
  · rw [show (Map.Set hash m key value).RangeList =
      ((Map.Set hash m key value).root).toList from rfl, hroot]
    exact hmain.2

theorem lastWrites_append_single (ops : List (κ × α)) (e : κ × α) :
    lastWrites (ops ++ [e]) = e :: eraseKey e.1 (lastWrites ops) := by
  simp [lastWrites, List.foldl_append]

theorem lastWrites_keys_nodup (ops : List (κ × α)) :
    ((lastWrites ops).map Prod.fst).Nodup := by
  induction ops using List.reverseRecOn with
  | nil => simp [lastWrites]
  | append_singleton ops e ih =>
    rw [lastWrites_append_single, List.map_cons]
    refine List.nodup_cons.mpr ⟨?_, ?_⟩
    · intro hmem
      obtain ⟨x, hx, hfx⟩ := List.mem_map.mp hmem
      exact (mem_eraseKey.mp hx).2 hfx
    · have hsub : (eraseKey e.1 (lastWrites ops)).Sublist (lastWrites ops) :=
        List.filter_sublist _
      exact List.Nodup.sublist (hsub.map Prod.fst) ih

theorem lastWritten_append_single (ops : List (κ × α)) (e : κ × α) (k : κ) :
    lastWritten (ops ++ [e]) k =
      if e.1 = k then some e.2 else lastWritten ops k := by
  unfold lastWritten
  rw [List.reverse_append, List.reverse_singleton, List.singleton_append]
  by_cases h : e.1 = k
  · rw [List.find?_cons_of_pos _ (by simpa using h), if_pos h]
    rfl
  · rw [List.find?_cons_of_neg _ (by simpa using h), if_neg h]

theorem mem_lastWrites (ops : List (κ × α)) (k : κ) (v : α) :
    (k, v) ∈ lastWrites ops ↔ lastWritten ops k = some v := by
  induction ops using List.reverseRecOn with
  | nil => simp [lastWrites, lastWritten]
  | append_singleton ops e ih =>
    rw [lastWrites_append_single, lastWritten_append_single]
    by_cases h : e.1 = k
    · rw [if_pos h]
      constructor
      · intro hmem
        rcases List.mem_cons.mp hmem with heq | hrest
        · rw [← heq]
        · exact absurd h (fun hc => (mem_eraseKey.mp hrest).2 hc.symm)
      · intro hsome
        injection hsome with hv
        exact List.mem_cons.mpr (Or.inl (by rw [← h, ← hv]))
    · rw [if_neg h, ← ih]
      constructor
      · intro hmem
        rcases List.mem_cons.mp hmem with heq | hrest
        · exact absurd (congrArg Prod.fst heq).symm h
        · exact (mem_eraseKey.mp hrest).1
      · intro hmem
        exact List.mem_cons.mpr
          (Or.inr (mem_eraseKey.mpr ⟨hmem, fun hk => h hk.symm⟩))

theorem lastWrites_keys_mem (ops : List (κ × α)) (k : κ) :
    k ∈ (lastWrites ops).map Prod.fst ↔ k ∈ ops.map Prod.fst := by
  induction ops using List.reverseRecOn with
  | nil => simp [lastWrites]
  | append_singleton ops e ih =>
    rw [lastWrites_append_single]
    constructor
    · intro hmem
      rw [List.map_cons] at hmem
      rw [List.map_append]
      rcases List.mem_cons.mp hmem with hk | hk
      · exact List.mem_append.mpr (Or.inr (by simp [hk]))
      · obtain ⟨x, hx, hfx⟩ := List.mem_map.mp hk
        exact List.mem_append.mpr (Or.inl (ih.mp
          (List.mem_map.mpr ⟨x, (mem_eraseKey.mp hx).1, hfx⟩)))
    · intro hmem
      rw [List.map_append] at hmem
      rw [List.map_cons]
      rcases List.mem_append.mp hmem with hleft | hright
      · by_cases hk : k = e.1
        · exact List.mem_cons.mpr (Or.inl hk)
        · obtain ⟨x, hx, hfx⟩ := List.mem_map.mp (ih.mpr hleft)
          refine List.mem_cons.mpr (Or.inr (List.mem_map.mpr
            ⟨x, mem_eraseKey.mpr ⟨hx, ?_⟩, hfx⟩))
          rw [hfx]
          exact hk
      · exact List.mem_cons.mpr (Or.inl (by simpa using hright))

theorem lastWrites_length (ops : List (κ × α)) :
    (lastWrites ops).length = (ops.map Prod.fst).dedup.length := by
  have h1 : ((lastWrites ops).map Prod.fst).Nodup := lastWrites_keys_nodup ops
  have h2 : (ops.map Prod.fst).dedup.Nodup := List.nodup_dedup _
  have hperm : ((lastWrites ops).map Prod.fst).Perm (ops.map Prod.fst).dedup := by
    rw [List.perm_ext_iff_of_nodup h1 h2]
    intro k
    rw [List.mem_dedup]
    exact lastWrites_keys_mem ops k
  have hlen := hperm.length_eq
  rwa [List.length_map] at hlen

/-- Folding `Set` from the zero map keeps the invariant and makes the
traversal a permutation of the abstract last-writes list. -/
theorem ofWrites_invM_rangePerm (hash : κ → Nat) (ops : List (κ × α)) :
    InvM hash (Map.ofWrites hash ops) ∧
    (Map.ofWrites hash ops).RangeList.Perm (lastWrites ops) := by
  induction ops using List.reverseRecOn with
  | nil =>
    refine ⟨⟨Or.inr rfl, Or.inl rfl⟩, ?_⟩
    show ((Map.empty κ α).root.toList).Perm (lastWrites [])
    rw [show (Map.empty κ α).root = bucket.empty from rfl, toList_empty]
    exact List.Perm.refl _
  | append_singleton ops e ih =>
    have hof : Map.ofWrites hash (ops ++ [e]) =
        Map.Set hash (Map.ofWrites hash ops) e.1 e.2 := by
      simp [Map.ofWrites, List.foldl_append]
    obtain ⟨hinv, hperm⟩ := ih
    obtain ⟨hinv', hperm'⟩ := Set_invM_rangePerm hash _ e.1 e.2 hinv
    rw [hof, lastWrites_append_single]
    exact ⟨hinv', hperm'.trans ((Perm.eraseKey_congr e.1 hperm).cons e)⟩

end OfWritesLemmas

/-! ## Claim C4 — `Range` visits each distinct key once, with its last
written value -/

/-- C4: for every sequence of writes folded into the empty map by `Set`,
the sequence handed to an always-true `Range` visitor is a permutation
of the distinct written keys paired with their most recently written
values; it has exactly one entry per distinct key (the length is the
number of distinct keys, the keys are pairwise distinct), and an entry
`(k, v)` is visited exactly when `v` is the last value written for `k`. -/
theorem C4_range_visits_each_distinct_key_once (κ α : Type) [DecidableEq κ]
    (hash : κ → Nat) (ops : List (κ × α)) :
    (Map.ofWrites hash ops).RangeList.Perm (lastWrites ops) ∧
    (Map.ofWrites hash ops).RangeList.length = (ops.map Prod.fst).dedup.length ∧
    (((Map.ofWrites hash ops).RangeList).map Prod.fst).Nodup ∧
    (∀ k v, (k, v) ∈ (Map.ofWrites hash ops).RangeList ↔
      lastWritten ops k = some v) := by
  obtain ⟨_, hperm⟩ := ofWrites_invM_rangePerm hash ops
  refine ⟨hperm, ?_, ?_, ?_⟩
  · rw [hperm.length_eq]
    exact lastWrites_length ops
  · exact ((hperm.map Prod.fst).nodup_iff).mpr (lastWrites_keys_nodup ops)
  · intro k v
    rw [← mem_lastWrites]
    exact hperm.mem_iff

/-! ## Vector lemmas -/

section VectorLemmas

variable {α : Type}

theorem descendN_none (idx r : Nat) :
    Vector.descendN (α := α) none idx r = none := by
  cases r <;> rfl

theorem descendN_some (nd : vectorNode α) (idx r : Nat) :
    Vector.descendN (some nd) idx (r + 1) =
      Vector.descendN
        (nd.children.getD (idx / bucketSize ^ (r + 1) % bucketSize) none) idx r := rfl

theorem descendN_bumpUp_lt (root : Option (vectorNode α)) (d idx : Nat)
    (hidx : idx < bucketSize ^ (d + 1)) :
    Vector.descendN (Vector.bumpUp root) idx (d + 1) =
      Vector.descendN root idx d := by
  have hdiv : idx / bucketSize ^ (d + 1) % bucketSize = 0 := by
    rw [Nat.div_eq_of_lt hidx, Nat.zero_mod]
  show Vector.descendN
      (some (vectorNode.mk [] ((List.replicate bucketSize none).set 0 root))) idx (d + 1)
    = Vector.descendN root idx d
  rw [descendN_some, vectorNode.children_mk, hdiv,
    getD_set_self _ 0 root none (by simp [bucketSize])]

/-- Wrapping the root in a `bumpUp` layer preserves every read below the
old capacity `32^depth`: the new top level consumes index digit 0 and
descends into the old root. -/
theorem readCore_bumpUp (root : Option (vectorNode α)) (d idx : Nat)
    (hidx : idx < bucketSize ^ (d + 1)) :
    Vector.readCore (Vector.bumpUp root) idx (d + 2) =
      Vector.readCore root idx (d + 1) := by
  unfold Vector.readCore
  rw [show d + 2 - 1 = d + 1 from rfl, show d + 1 - 1 = d from rfl,
    descendN_bumpUp_lt root d idx hidx]

/-- A root all of whose reads (at its depth) are nil keeps that property
through a `bumpUp` layer. -/
theorem readCore_bumpUp_spine (root : Option (vectorNode α)) (d idx : Nat)
    (h : ∀ idx2, Vector.readCore root idx2 (d + 1) = none) :
    Vector.readCore (Vector.bumpUp root) idx (d + 2) = none := by
  by_cases hc : idx / bucketSize ^ (d + 1) % bucketSize = 0
  · have h1 : Vector.descendN (Vector.bumpUp root) idx (d + 1) =
        Vector.descendN root idx d := by
      show Vector.descendN
          (some (vectorNode.mk [] ((List.replicate bucketSize none).set 0 root)))
          idx (d + 1) = Vector.descendN root idx d
      rw [descendN_some, vectorNode.children_mk, hc,
        getD_set_self _ 0 root none (by simp [bucketSize])]
    have := h idx
    unfold Vector.readCore at this ⊢
    rw [show d + 2 - 1 = d + 1 from rfl, h1]
    rw [show d + 1 - 1 = d from rfl] at this
    exact this
  · have h1 : Vector.descendN (Vector.bumpUp root) idx (d + 1) = none := by
      show Vector.descendN
          (some (vectorNode.mk [] ((List.replicate bucketSize none).set 0 root)))
          idx (d + 1) = none
      rw [descendN_some, vectorNode.children_mk, getD_set_ne _ _ _ _ _ hc,
        getD_replicate, descendN_none]
    unfold Vector.readCore
    rw [show d + 2 - 1 = d + 1 from rfl, h1]

/-- Any property of `(capacity, depth, root)` preserved by one growth
step is preserved by the whole `growLoop`. -/
theorem growLoop_invariant (P : Nat → Nat → Option (vectorNode α) → Prop)
    (step : ∀ cap depth root, P cap depth root →
      P (cap * bucketSize) (depth + 1) (Vector.bumpUp root))
    (fuel size cap depth : Nat) (root : Option (vectorNode α))
    (h : P cap depth root) :
    P (Vector.growLoop fuel size cap depth root).1
      (Vector.growLoop fuel size cap depth root).2.1
      (Vector.growLoop fuel size cap depth root).2.2 := by
  induction fuel generalizing cap depth root with
  | zero => exact h
  | succ f ih =>
    rw [show Vector.growLoop (f + 1) size cap depth root =
      (if cap < size ∧ cap ≠ 0 then
        Vector.growLoop f size (cap * bucketSize) (depth + 1) (Vector.bumpUp root)
      else (cap, depth, root)) from rfl]
    by_cases hc : cap < size ∧ cap ≠ 0
    · rw [if_pos hc]
      exact ih (cap * bucketSize) (depth + 1) (Vector.bumpUp root) (step _ _ _ h)
    · rw [if_neg hc]
      exact h

/-- `Get` in terms of `readCore`, for vectors with storage. -/
theorem Vector.Get_eq_readCore (v : Vector α) (i : Nat) (hs : i < v.size)
    (hr : v.root.isSome) :
    v.Get i = some (Vector.readCore v.root (i + v.offset) v.depth) := by
  obtain ⟨r, hr⟩ := Option.isSome_iff_exists.mp hr
  unfold Vector.Get
  rw [if_neg (by omega), hr]

/-- `Resize` on a vector that already has storage: capacity, depth and
root go through the growth loop, size is replaced, offset is kept (for a
non-zero target size). -/
theorem Vector.Resize_of_capacity_ne_zero (v : Vector α) (n : Nat)
    (hcap : v.capacity ≠ 0) (hn : n ≠ 0) :
    v.Resize n =
      { size := n,
        capacity := (Vector.growLoop n n v.capacity v.depth v.root).1,
        depth := (Vector.growLoop n n v.capacity v.depth v.root).2.1,
        offset := v.offset,
        root := (Vector.growLoop n n v.capacity v.depth v.root).2.2 } := by
  unfold Vector.Resize
  have h1 : ¬(v.capacity = 0 ∧ 0 < n) := by
    intro h
    exact hcap h.1
  simp only [if_neg h1, if_neg hn]

/-- `Resize` from the zero vector, to a non-zero size: storage starts as
a fresh depth-1 node and goes through the growth loop. -/
theorem Vector.Resize_empty (n : Nat) (hn : n ≠ 0) :
    (Vector.empty α).Resize n =
      { size := n,
        capacity := (Vector.growLoop n n bucketSize 1
          (some (vectorNode.mk ([] : List (Option α)) []))).1,
        depth := (Vector.growLoop n n bucketSize 1
          (some (vectorNode.mk ([] : List (Option α)) []))).2.1,
        offset := 0,
        root := (Vector.growLoop n n bucketSize 1
          (some (vectorNode.mk ([] : List (Option α)) []))).2.2 } := by
  have hn' : 0 < n := by omega
  unfold Vector.Resize Vector.empty
  simp [hn, hn']

end VectorLemmas

/-! ## Claim C7 — sparse reads on a freshly resized vector -/

/-- C7: `Vector{}.Resize(N).Get(i)` is Go `nil` for every `i < N`: the
storage produced by `Resize` from the zero vector is a spine of
`bumpUp` layers around a fresh node, every read of which is nil — a
missing child or a nil values slice along the path reads as the absent
value, never a failure. -/
theorem C7_resize_from_empty_reads_nil (α : Type) (N i : Nat) (h : i < N) :
    ((Vector.empty α).Resize N).Get i = some none := by
  have hN : N ≠ 0 := by omega
  rw [Vector.Resize_empty N hN]
  have hinv := growLoop_invariant (α := α)
    (fun cap depth root => 1 ≤ depth ∧ root.isSome = true ∧
      ∀ idx, Vector.readCore root idx depth = none)
    (fun cap depth root hP => by
      obtain ⟨hd, hs, hr⟩ := hP
      refine ⟨by omega, rfl, fun idx => ?_⟩
      cases depth with
      | zero => omega
      | succ d =>
        exact readCore_bumpUp_spine root d idx (fun idx2 => hr idx2))
    N N bucketSize 1 (some (vectorNode.mk ([] : List (Option α)) []))
    ⟨Nat.le_refl 1, rfl, fun idx => rfl⟩
  have hGet := Vector.Get_eq_readCore
    ({ size := N,
       capacity := (Vector.growLoop N N bucketSize 1
         (some (vectorNode.mk ([] : List (Option α)) []))).1,
       depth := (Vector.growLoop N N bucketSize 1
         (some (vectorNode.mk ([] : List (Option α)) []))).2.1,
       offset := 0,
       root := (Vector.growLoop N N bucketSize 1
         (some (vectorNode.mk ([] : List (Option α)) []))).2.2 } : Vector α)
    i h hinv.2.1
  rw [hGet]
  exact congrArg some (hinv.2.2 (i + 0))

/-- C7 witness: at `N = 40`, `i = 35`. -/
theorem C7_witness : 35 < 40 ∧ ((Vector.empty Nat).Resize 40).Get 35 = some none :=
  ⟨by decide, C7_resize_from_empty_reads_nil Nat 40 35 (by decide)⟩

/-! ## Claim C6 (amended) — `Resize` preserves in-range reads -/

/-- C6 (amended): for a vector whose storage is consistent — depth at
least 1, `capacity = 32^depth`, an allocated root, and the addressable
window inside capacity (`offset + size ≤ capacity`, which Resizing a
slice can violate, see the counterexample) — `Resize` preserves every
`Get` at an index below both the old size and the new size: growth wraps
the old root as child 0 of each new root, and indices below the old
capacity keep resolving through the old trie. -/
theorem C6_resize_preserves_in_range_reads (α : Type) (v : Vector α)
    (hdepth : 1 ≤ v.depth) (hcap : v.capacity = bucketSize ^ v.depth)
    (hroot : v.root.isSome = true) (hfit : v.offset + v.size ≤ v.capacity)
    (n i : Nat) (hi : i < v.size) (hin : i < n) :
    (v.Resize n).Get i = v.Get i := by
  have hc0 : v.capacity ≠ 0 := by
    rw [hcap]
    exact Nat.pos_iff_ne_zero.mp (Nat.pos_pow_of_pos _ (by norm_num [bucketSize]))
  rw [Vector.Resize_of_capacity_ne_zero v n hc0 (by omega)]
  have hinv := growLoop_invariant
    (fun cap depth root => 1 ≤ depth ∧ cap = bucketSize ^ depth ∧
      v.capacity ≤ cap ∧ root.isSome = true ∧
      ∀ idx, idx < v.capacity → Vector.readCore root idx depth =
        Vector.readCore v.root idx v.depth)
    (fun cap depth root hP => by
      obtain ⟨hd, hcd, hle, hs, hr⟩ := hP
      refine ⟨by omega, ?_, ?_, rfl, fun idx hlt => ?_⟩
      · rw [pow_succ, hcd]
      · calc v.capacity ≤ cap := hle
        _ ≤ cap * bucketSize := Nat.le_mul_of_pos_right _ (by norm_num [bucketSize])
      · cases depth with
        | zero => omega
        | succ d =>
          rw [readCore_bumpUp root d idx (by rw [← hcd]; omega)]
          exact hr idx hlt)
    n n v.capacity v.depth v.root
    ⟨hdepth, hcap, Nat.le_refl _, hroot, fun idx _ => rfl⟩
  have hGet := Vector.Get_eq_readCore
    ({ size := n,
       capacity := (Vector.growLoop n n v.capacity v.depth v.root).1,
       depth := (Vector.growLoop n n v.capacity v.depth v.root).2.1,
       offset := v.offset,
       root := (Vector.growLoop n n v.capacity v.depth v.root).2.2 } : Vector α)
    i hin hinv.2.2.2.1
  rw [hGet, Vector.Get_eq_readCore v i hi hroot]
  exact congrArg some (hinv.2.2.2.2 (i + v.offset) (by omega))

/-- C6 witness: a depth-1 vector holding `[5, 6]`, regrown to 100. -/
theorem C6_amended_witness :
    ((⟨2, 32, 1, 0, some (vectorNode.mk ([some 5, some 6] ++ List.replicate 30 none) [])⟩ :
        Vector Nat).Resize 100).Get 1 = some (some 6) ∧
      (⟨2, 32, 1, 0, some (vectorNode.mk ([some 5, some 6] ++ List.replicate 30 none) [])⟩ :
        Vector Nat).Get 1 = some (some 6) :=
  ⟨(C6_resize_preserves_in_range_reads Nat _ (by decide) (by decide) (by decide)
      (by decide) 100 1 (by decide) (by decide)).trans (by decide), by decide⟩

/-! ## Claim C10 (amended) — `VectorRange` iteration -/

section RangeLemmas

variable {α : Type}

/-- Two positions in the same 32-block descend to the same node: every
level of the descent only looks at index bits above the lowest five. -/
theorem descendN_succ_same_block (root : Option (vectorNode α)) (i r : Nat)
    (h : (i + 1) % bucketSize ≠ 0) :
    Vector.descendN root (i + 1) r = Vector.descendN root i r := by
  have hdiv : (i + 1) / bucketSize = i / bucketSize := by
    simp only [bucketSize] at h ⊢
    omega
  induction r generalizing root with
  | zero => rfl
  | succ r' ih =>
    cases root with
    | none => rfl
    | some nd =>
      rw [descendN_some, descendN_some]
      have hk : (i + 1) / bucketSize ^ (r' + 1) = i / bucketSize ^ (r' + 1) := by
        rw [pow_succ', ← Nat.div_div_eq_div_mul, ← Nat.div_div_eq_div_mul, hdiv]
      rw [hk]
      exact ih _

/-- The explicit shape of the iterator state after `i + 1` calls to
`Next`, for an offset-insensitive description: position `i`, node
position `i % 32`, and the node obtained by descending with the bare
position `i`. -/
theorem rangeState_closed_form (v : Vector α) (r : vectorNode α)
    (hroot : v.root = some r) :
    ∀ i, i < v.size → v.rangeState (i + 1) =
      { vector := v, position := i, nodePosition := i % bucketSize,
        root := v.root, node := Vector.descendN v.root i (v.depth - 1) } := by
  intro i
  induction i with
  | zero =>
    intro hi
    show (v.Elements).Next.2 = _
    unfold Vector.Elements VectorRange.Next
    simp [hroot, show ¬(0 = v.size) by omega]
  | succ i ih =>
    intro hi
    have hstate := ih (by omega)
    show (v.rangeState (i + 1)).Next.2 = _
    rw [hstate]
    unfold VectorRange.Next
    by_cases hblock : i % bucketSize + 1 = bucketSize
    · have hmod : (i + 1) % bucketSize = 0 := by
        simp only [bucketSize] at hblock ⊢
        omega
      simp [hroot, show ¬(i + 1 = v.size) by omega, hblock, hmod]
    · have hmod : (i + 1) % bucketSize = i % bucketSize + 1 := by
        simp only [bucketSize] at hblock ⊢
        omega
      have hnode : Vector.descendN v.root (i + 1) (v.depth - 1) =
          Vector.descendN v.root i (v.depth - 1) := by
        rw [descendN_succ_same_block v.root i _ (by simp only [bucketSize] at hmod ⊢; omega)]
      rw [hroot] at hnode
      simp [hroot, show ¬(i + 1 = v.size) by omega, hblock, hmod, hnode]

end RangeLemmas

/-- C10 (amended): for an offset-0 vector with storage (root allocated
and depth at least 1 when non-empty) in which the leaf for every
in-range position, when present, has its 32-slot values array allocated:
iterating `v.Elements()` calls `Next` successfully exactly `v.Size()`
times (the call after the last element returns false), and after the
`(i+1)`-th `Next` the iterator's `Get` returns exactly `v.Get(i)` —
including nil for in-bounds positions that were never written. -/
theorem C10_range_iterates_size_steps_and_agrees_with_get (α : Type)
    (v : Vector α) (hoff : v.offset = 0)
    (hwf : v.size = 0 ∨ (v.root.isSome = true ∧ 1 ≤ v.depth))
    (hleaf : ∀ i, i < v.size → v.leafSizedAt i = true) :
    (∀ i, i < v.size → (v.rangeState i).Next.1 = true) ∧
      (v.rangeState v.size).Next.1 = false ∧
      (∀ i, i < v.size → (v.rangeState (i + 1)).Get = v.Get i) := by
  rcases hwf with hsz | ⟨hsome, hd⟩
  · refine ⟨fun i hi => by omega, ?_, fun i hi => by omega⟩
    rw [hsz]
    show (v.Elements).Next.1 = false
    unfold Vector.Elements VectorRange.Next
    simp [hsz]
  · obtain ⟨r, hroot⟩ := Option.isSome_iff_exists.mp hsome
    have hclosed := rangeState_closed_form v r hroot
    refine ⟨fun i hi => ?_, ?_, fun i hi => ?_⟩
    · cases i with
      | zero =>
        show (v.Elements).Next.1 = true
        unfold Vector.Elements VectorRange.Next
        simp [hroot, show ¬(0 = v.size) by omega]
      | succ j =>
        rw [hclosed j (by omega)]
        unfold VectorRange.Next
        by_cases hblock : j % bucketSize + 1 = bucketSize
        · simp [hroot, show ¬(j + 1 = v.size) by omega, hblock]
        · simp [hroot, show ¬(j + 1 = v.size) by omega, hblock]
    · rcases Nat.eq_zero_or_pos v.size with hz | hpos
      · rw [hz]
        show (v.Elements).Next.1 = false
        unfold Vector.Elements VectorRange.Next
        simp [hz]
      · obtain ⟨m, hs⟩ : ∃ m, v.size = m + 1 := ⟨v.size - 1, by omega⟩
        rw [hs, hclosed m (by omega)]
        unfold VectorRange.Next
        simp [hroot, show m + 1 = v.size by omega]
    · rw [hclosed i hi]
      have hGet := Vector.Get_eq_readCore v i hi hsome
      rw [hGet, hoff, Nat.add_zero]
      have hls := hleaf i hi
      unfold Vector.leafSizedAt at hls
      unfold VectorRange.Get Vector.readCore
      cases hn : Vector.descendN v.root i (v.depth - 1) with
      | none => rfl
      | some leaf =>
        rw [hn] at hls
        have hlen : leaf.values.length = bucketSize := by
          simpa using hls
        simp only []
        rw [if_pos (show i % bucketSize < leaf.values.length by
          rw [hlen]
          simp only [bucketSize]
          omega)]
        rw [if_neg (show ¬(leaf.values.length = 0) by
          rw [hlen]
          simp [bucketSize])]

/-- C10 witness: a two-element depth-1 vector `[3, 4]`; the first
iteration step reads element 0. -/
theorem C10_amended_witness :
    ((⟨2, 32, 1, 0, some (vectorNode.mk ([some 3, some 4] ++
        List.replicate 30 none) [])⟩ : Vector Nat).rangeState 1).Get =
      (⟨2, 32, 1, 0, some (vectorNode.mk ([some 3, some 4] ++
        List.replicate 30 none) [])⟩ : Vector Nat).Get 0 :=
  (C10_range_iterates_size_steps_and_agrees_with_get Nat _ rfl
    (Or.inr ⟨by decide, by decide⟩) (by decide)).2.2 0 (by decide)

/-! ## Claim C8 (amended) — slice correctness for offset-0 vectors -/

/-- C8 (amended): for a vector `v` with offset 0 (in particular, any
vector that is not itself a slice) filled with `v.Get(i) = i`, and
`a < b ≤ v.Size()`: the slice shares the backing trie (`capacity`,
`depth`, `root`) with `size = b - a` and `offset = a`, and
`v.Slice(a,b).Get(j) = a + j` for every `j < b - a`. -/
theorem C8_slice_of_offset_zero_reads_shifted (v : Vector Nat) (hoff : v.offset = 0)
    (a b : Nat) (hab : a < b) (hb : b ≤ v.size)
    (hfill : ∀ i, i < v.size → v.Get i = some (some i)) :
    v.Slice a b = some { size := b - a, capacity := v.capacity, depth := v.depth,
                         offset := a, root := v.root } ∧
      ∀ j, j < b - a → (v.Slice a b).map (fun s => s.Get j) =
        some (some (some (a + j))) := by
  have h1 : ¬(b < a) := by omega
  have h2 : ¬(b = a ∨ v.size ≤ a) := by
    push_neg
    omega
  have hstop : (if v.size ≤ b then v.size else b) = b := by
    split <;> omega
  have hslice : v.Slice a b =
      some { size := b - a, capacity := v.capacity, depth := v.depth,
             offset := a, root := v.root } := by
    simp only [Vector.Slice, if_neg h1, if_neg h2, hstop]
  refine ⟨hslice, fun j hj => ?_⟩
  have hroot : v.root.isSome = true := by
    cases hr : v.root with
    | some r => rfl
    | none =>
      have hfz := hfill 0 (by omega)
      unfold Vector.Get at hfz
      rw [if_neg (by omega), hr] at hfz
      exact absurd hfz (by simp)
  rw [hslice]
  have hGs := Vector.Get_eq_readCore
    ({ size := b - a, capacity := v.capacity, depth := v.depth,
       offset := a, root := v.root } : Vector Nat) j hj hroot
  have hGv := Vector.Get_eq_readCore v (a + j) (by omega) hroot
  rw [hfill (a + j) (by omega)] at hGv
  rw [hoff] at hGv
  simp only [Option.map_some']
  rw [hGs]
  have : j + a = a + j + 0 := by omega
  rw [this, ← hGv]

/-- C8 witness: the depth-1 vector `[0, 1, 2]`, sliced at `(1, 3)`,
read at `j = 1`. -/
theorem C8_amended_witness :
    ((⟨3, 32, 1, 0, some (vectorNode.mk ([some 0, some 1, some 2] ++
        List.replicate 29 none) [])⟩ : Vector Nat).Slice 1 3).map
      (fun s => s.Get 1) = some (some (some (1 + 1))) :=
  (C8_slice_of_offset_zero_reads_shifted _ rfl 1 3 (by decide) (by decide)
    (by decide)).2 1 (by decide)

/-! ## Claim C1 — immutability / frame property of `Set`

The claim asserts `m.Set(k1,v).Get(k2) == m.Get(k2)` for `k1 ≠ k2` on
every map.  The embedding itself is pure, so the original value is
trivially unchanged; but the frame property is violated by the code for
maps produced by a successful `Delete`, because `Delete` rebuilds the
returned `Map` literal without `leafCount`/`capacity`, and `Get` treats
`capacity == 0` as "empty".  A subsequent `Set` restores a non-zero
capacity and thereby resurrects entries that `Get` could not see. -/

/-- C1: the claimed frame property `m.Set(k1,v).Get(k2) == m.Get(k2)`
(`k1 ≠ k2`) fails on the map `d = {}.Set(1,10).Set(2,20).Delete(1)`:
with the identity hash, `d.Get(2)` is not-found (capacity was dropped to
0 by `Delete`), yet after `d.Set(4098, 0)` — key `4098 ≠ 2` — `Get(2)`
finds the old value `20` again. -/
theorem C1_set_frame_property_fails_after_delete :
    Map.Get (fun n => n)
      (Map.Delete (fun n => n)
        (Map.Set (fun n => n) (Map.Set (fun n => n) (Map.empty Nat Nat) 1 10) 2 20)
        1) 2 = none ∧
    Map.Get (fun n => n)
      (Map.Set (fun n => n)
        (Map.Delete (fun n => n)
          (Map.Set (fun n => n) (Map.Set (fun n => n) (Map.empty Nat Nat) 1 10) 2 20)
          1) 4098 0) 2 = some 20 := by
  decide

/-! ## Claim C2 — `Delete` keeps every other key intact -/

/-- C2: the claim `m.Delete(k1).Get(k2) == m.Get(k2)` for `k1 ≠ k2`
fails: deleting key `1` from `{}.Set(1,10).Set(2,20)` makes key `2`
unreadable, because the `Map` literal returned by `Delete` leaves
`capacity` (and `leafCount`) zero and `Get` short-circuits on
`capacity == 0`. -/
theorem C2_delete_loses_all_other_keys :
    Map.Get (fun n => n)
      (Map.Set (fun n => n) (Map.Set (fun n => n) (Map.empty Nat Nat) 1 10) 2 20)
      2 = some 20 ∧
    Map.Get (fun n => n)
      (Map.Delete (fun n => n)
        (Map.Set (fun n => n) (Map.Set (fun n => n) (Map.empty Nat Nat) 1 10) 2 20)
        1) 2 = none := by
  decide

/-! ## Claim C9 — `Size` counts distinct keys -/

/-- C9: the claim "`m.Set(k,v).Size() == m.Size() + 1` when `m.Get(k)`
reports not-found" fails on a map produced by `Delete`: on
`d = {}.Set(1,10).Set(2,20).Delete(1)` (whose `Size` is 1), `Get(2)`
reports not-found, yet `d.Set(2, 99)` leaves `Size` at 1 — the entry for
key 2 was still physically in the trie and is replaced, not appended. -/
theorem C9_size_diverges_from_get_after_delete :
    Map.Size (Map.empty Nat Nat) = 0 ∧
    Map.Size
      (Map.Delete (fun n => n)
        (Map.Set (fun n => n) (Map.Set (fun n => n) (Map.empty Nat Nat) 1 10) 2 20)
        1) = 1 ∧
    Map.Get (fun n => n)
      (Map.Delete (fun n => n)
        (Map.Set (fun n => n) (Map.Set (fun n => n) (Map.empty Nat Nat) 1 10) 2 20)
        1) 2 = none ∧
    Map.Size
      (Map.Set (fun n => n)
        (Map.Delete (fun n => n)
          (Map.Set (fun n => n) (Map.Set (fun n => n) (Map.empty Nat Nat) 1 10) 2 20)
          1) 2 99) = 1 := by
  decide

/-! ## Claim C5 — `KeyTypeError` for non-value-comparable key types -/

/-- C5 counterexample: the claim says channel-typed and pointer-typed
keys make encoding fail with `KeyTypeError`, but Go's
`reflect.Type.Comparable()` is true for channels and pointers, so the
`default` branch of `hashValue` accepts them (they hash by reference). -/
theorem C5_counterexample_chan_and_ptr_keys_accepted :
    hashValuePanics .chanT = false ∧ hashValuePanics .ptrT = false ∧
      hashValuePanics .unsafePointerT = false :=
  ⟨rfl, rfl, rfl⟩

/-- C5 (amended): `hashValue` panics with `KeyTypeError` exactly on the
key types Go deems non-comparable: slices, maps and functions are
rejected, as is any array or struct containing them; strings, fixed
width numerics, booleans, fixed-size arrays of comparables and plain
structs of comparable fields are accepted — and so are channels and
pointers, which are reference-comparable in Go. -/
theorem C5_keyTypeError_iff_not_go_comparable :
    (∀ t : GoType, hashValuePanics t = !goComparable t) ∧
      hashValuePanics .sliceT = true ∧
      hashValuePanics .mapT = true ∧
      hashValuePanics .funcT = true ∧
      hashValuePanics .stringT = false ∧
      hashValuePanics .intT = false ∧
      hashValuePanics .int32T = false ∧
      hashValuePanics .int64T = false ∧
      hashValuePanics .float32T = false ∧
      hashValuePanics .float64T = false ∧
      (∀ e : GoType, hashValuePanics (.arrayT e) = !goComparable e) ∧
      (∀ fs : List GoType, hashValuePanics (.structT fs) = !goComparableList fs) := by
  refine ⟨fun t => ?_, rfl, rfl, rfl, rfl, rfl, rfl, rfl, rfl, rfl, fun e => rfl, fun fs => rfl⟩
  cases t <;> rfl

/-! ## Claim C6 — `Resize` preserves readable prefix -/

/-- C6 counterexample: `Resize` can change in-range `Get` results.  Build
`s = ({}.Resize(1024).Set(8,99)).Slice(32,1024)` and `v = s.Resize(1024)`
(all through the public API): `v` has size 1024 and offset 32, so logical
index 1000 maps to absolute position 1032, beyond the trie's capacity
1024; the depth-2 walk wraps and reads position 8, giving `Get(1000) = 99`.
After `v.Resize(2000)` the trie grows to depth 3, position 1032 no longer
wraps, and `Get(1000)` is nil — violating
`v.Resize(n).Get(i) == v.Get(i)` for `i = 1000 < min(1024, 2000)`. -/
theorem C6_counterexample_resize_changes_out_of_capacity_reads :
    ((((Vector.empty Nat).Resize 1024).Set 8 99).bind (fun b => b.Slice 32 1024)).map
        (fun s => ((s.Resize 1024).Size,
                   (s.Resize 1024).Get 1000,
                   ((s.Resize 1024).Resize 2000).Get 1000))
      = some (1024, some (some 99), some none) := by
  decide

/-! ## Claim C8 — slice correctness -/

/-- C8 counterexample: the claim quantifies over vectors "including
vectors that are themselves the result of Slice", but `Slice` stores
`offset = start` absolutely (it does not add the current offset).  Build
`w` with `w.Get(i+1) = i` on a 32-slot trie and `v = w.Slice(1, 9)`: `v`
satisfies `v.Get(i) = i` for all `i < 8 = v.Size()`, yet
`v.Slice(2, 4).Get(0) = 1`, not `2 + 0` as the claim requires. -/
theorem C8_counterexample_slice_of_slice_ignores_offset :
    (((List.range 8).foldl (fun acc i => acc.bind (fun vv => vv.Set (i + 1) i))
          (some ((Vector.empty Nat).Resize 32))).bind (fun w => w.Slice 1 9)).map
        (fun v => (v.Size, (List.range 8).all (fun i => v.Get i == some (some i)),
                   (v.Slice 2 4).map (fun s => s.Get 0)))
      = some (8, true, some (some (some 1))) := by
  decide

/-! ## Claim C10 — `VectorRange` agrees with `Get` -/

/-- C10 counterexample: `VectorRange.Next` descends with the bare
`position`, never adding the vector's `offset`, so iterating a slice
reads from the start of the backing trie.  With
`w = {}.Resize(64).Set(32,7).Set(0,5)` and `s = w.Slice(32,64)`:
`s.Get(0) = 7`, but after the first `Next` (which returns true) the
iterator's `Get` returns 5 — the value at backing position 0. -/
theorem C10_counterexample_range_ignores_offset :
    (((((Vector.empty Nat).Resize 64).Set 32 7).bind (fun a => a.Set 0 5)).bind
        (fun w => w.Slice 32 64)).map
        (fun s => (s.Size, (s.rangeState 0).Next.1, (s.rangeState 1).Get, s.Get 0))
      = some (32, true, some (some 5), some (some 7)) := by
  decide

end Immutable
